import Mathlib

/-!
# Verification of the Guppy reliable-delivery client engine (src/src/guppy.c)

Shallow embedding of the session state machine implemented in `guppy.c`:
the chunk reassembly buffer (`storeChunk_Guppy_`), the drain loop
(`processChunks_Guppy_`), the response parser (`processResponse_Guppy`) and
the retry/ack scheduler (`retryGuppy_`).

Modelling conventions:
* raw bytes are modelled as `List Char`;
* C `int` sequence numbers are modelled as `Nat` (the regex `^([0-9]+)` only
  ever produces non-negative values); the code's explicit `INT_MAX` guards are
  kept, with `INTMAX = 2147483647`;
* the sentinel "unknown" value for `firstSeq` / `lastSeq` / `currentSeq` is 0,
  exactly as in `init_Guppy`;
* the fixed-size `chunks` array is a `List Chunk`; its capacity is declared in
  `guppy.h`, which is not part of the sources; modelled from the spec
  ("fixed-capacity set of reorder slots", "single-digit to low tens of slots")
  as 10 slots (`chunkSlots`);
* outbound socket writes are returned as explicit outputs (the ack lines of
  `ack_Guppy_`, the actions of the timer callback);
* timestamps and the SDL timer are modelled separately for the scheduler
  (`retryGuppy`, `runTimer`); `processResponse` does not need them for any of
  the parsing / reassembly claims.
-/

/-- `INT_MAX` on the platforms targeted by the C code. -/
def INTMAX : Nat := 2147483647

/-- One reorder slot of the reassembly buffer: `d->chunks[i]` holds a
sequence number (0 = free) and the chunk payload. -/
structure Chunk where
  seq : Nat
  data : List Char
deriving DecidableEq, Repr

/-- `enum iGuppyState`.  `timedOut` is reported through the timeout audience,
not through `processResponse`, and never appears below. -/
inductive GuppyState where
  | none
  | inProgress
  | finished
  | invalidResponse
  | inputRequired
  | redirect
  | error
deriving DecidableEq, Repr

/-- The session state mutated by the parser and the reassembly routines
(the fields of `struct iGuppy` that `processResponse_Guppy`,
`storeChunk_Guppy_` and `processChunks_Guppy_` touch). -/
structure Guppy where
  state : GuppyState
  meta : List Char
  body : List Char
  chunks : List Chunk
  firstSeq : Nat
  lastSeq : Nat
  currentSeq : Nat
deriving DecidableEq, Repr

/-- Modelled from the spec: the capacity of the reassembly array is fixed in
`guppy.h` (absent from the sources); the spec only says "fixed-capacity",
"single-digit to low tens of slots", so we take 10 slots. -/
def chunkSlots : Nat := 10

/-- The slots as initialised by `init_Guppy`: every `seq` 0, every payload empty. -/
def freshChunks : List Chunk := List.replicate chunkSlots ⟨0, []⟩

/-- `init_Guppy`: state `none`, empty buffers, all watermarks at the sentinel 0. -/
def initGuppy : Guppy :=
  { state := .none, meta := [], body := [], chunks := freshChunks
    firstSeq := 0, lastSeq := 0, currentSeq := 0 }

/-- `open_Guppy` (the part visible to the parser claims): state becomes
`inProgress`.  The request write and the timestamps belong to the scheduler
model. -/
def openGuppy (d : Guppy) : Guppy := { d with state := .inProgress }

/-- The single scan pass of `storeChunk_Guppy_` (the `for` loop at
guppy.c:121-135).  Walks the slots at index `i`, carrying the running
`slot` (first free or stale slot, `none` = C's `-1`), the running `maxSeq`
(an `Int`, initialised to `-1` as in C) and its slot `maxSlot`.  Returns
`(found, slot, maxSlot)`; on `found` it breaks immediately, as the C loop
does. -/
def scanGo (f l s : Nat) : List Chunk → Nat → Option Nat → Int → Option Nat →
    Bool × Option Nat × Option Nat
  | [], _, slot, _, maxSlot => (false, slot, maxSlot)
  | x :: rest, i, slot, maxSeq, maxSlot =>
    if x.seq = s then (true, slot, maxSlot)
    else
      let slot' := if slot = Option.none ∧
          (x.seq = 0 ∨ (0 < f ∧ x.seq < f) ∨ (0 < l ∧ l < x.seq)) then some i else slot
      let mp : Int × Option Nat :=
        if maxSeq < (x.seq : Int) then ((x.seq : Int), some i) else (maxSeq, maxSlot)
      scanGo f l s rest (i + 1) slot' mp.1 mp.2

/-- The scan-and-store part of `storeChunk_Guppy_` (guppy.c:121-145): run the
slot scan, do nothing on a duplicate (`found`), otherwise store into the
free/stale slot, or — when there is none and this is the chunk matching
`firstSeq` — evict the slot with the highest sequence number. -/
def storeChunkScan (d : Guppy) (seq : Nat) (data : List Char) : Guppy :=
  let r := scanGo d.firstSeq d.lastSeq seq d.chunks 0 Option.none (-1) Option.none
  if r.1 then d
  else
    match (if seq = d.firstSeq ∧ r.2.1 = Option.none then r.2.2 else r.2.1) with
    | some i => { d with chunks := d.chunks.set i ⟨seq, data⟩ }
    | Option.none => d

/-- `storeChunk_Guppy_` after the `firstSeq` update (guppy.c:114-145): record
the terminator (`lastSeq`) on an empty payload and return, reject
out-of-window chunks, otherwise scan and store. -/
def storeChunkCore (d : Guppy) (seq : Nat) (data : List Char) : Guppy :=
  if d.lastSeq = 0 ∧ data = [] then { d with lastSeq := seq }
  else if (d.currentSeq ≠ 0 ∧ seq ≤ d.currentSeq) ∨ (d.firstSeq ≠ 0 ∧ seq < d.firstSeq) ∨
      (d.lastSeq ≠ 0 ∧ d.lastSeq < seq) then d
  else storeChunkScan d seq data

/-- `storeChunk_Guppy_` (guppy.c:108-146): first set `firstSeq` on the first
chunk (when the value is representable, `seq < INT_MAX`), then the rest of
the routine reads the updated fields. -/
def storeChunk (d : Guppy) (seq : Nat) (data : List Char) : Guppy :=
  storeChunkCore
    (if d.firstSeq = 0 ∧ seq < INTMAX then { d with firstSeq := seq } else d) seq data

/-- The guard of the append in `processChunks_Guppy_` (guppy.c:154): slot
sequence `s` is deliverable when it is `currentSeq + 1` (with `currentSeq`
set and below `INT_MAX`) or, while `currentSeq` is unset, equals `firstSeq`. -/
def drainCond (f c s : Nat) : Prop :=
  (c ≠ 0 ∧ c < INTMAX ∧ s = c + 1) ∨ (c = 0 ∧ 0 < f ∧ s = f)

instance (f c s : Nat) : Decidable (drainCond f c s) := by
  unfold drainCond; infer_instance

/-- Result of a drain pass / the drain loop: the slots, `currentSeq`, the
body, the `again` flag, and (instrumentation) the list of chunks appended,
in order of appending.  The log is a projection-free extension: dropping it
gives exactly the C state. -/
structure DrainOut where
  chunks : List Chunk
  currentSeq : Nat
  body : List Char
  again : Bool
  log : List Chunk
deriving DecidableEq, Repr

/-- One iteration of the inner `for` loop of `processChunks_Guppy_`
(guppy.c:153-162), at slot index `i` of `n` total slots: an appendable slot
is consumed (payload appended, `currentSeq` updated, slot freed) and `again`
is set to `i < n - 1`, exactly as in the C code. -/
def drainPassGo (f n : Nat) : List Chunk → Nat → Nat → List Char → Bool → DrainOut
  | [], _, c, b, a => ⟨[], c, b, a, []⟩
  | x :: rest, i, c, b, a =>
    if drainCond f c x.seq then
      let r := drainPassGo f n rest (i + 1) x.seq (b ++ x.data) (decide (i < n - 1))
      ⟨⟨0, []⟩ :: r.chunks, r.currentSeq, r.body, r.again, x :: r.log⟩
    else
      let r := drainPassGo f n rest (i + 1) c b a
      ⟨x :: r.chunks, r.currentSeq, r.body, r.again, r.log⟩

/-- One full pass of the `for` loop (starting with `again = false`). -/
def drainPass (f : Nat) (cs : List Chunk) (c : Nat) (b : List Char) : DrainOut :=
  drainPassGo f cs.length cs 0 c b false

/-- The number of occupied slots (`seq ≠ 0`); the termination measure of the
`do … while (again)` loop. -/
def occupied (cs : List Chunk) : Nat := (cs.filter fun x => x.seq != 0).length

/-- The `do … while (again)` loop of `processChunks_Guppy_`, with explicit
fuel.  `drainLoop` below supplies `occupied cs + 1` fuel, and
`drainLoopFuel_stable` shows any larger fuel gives the same result, so this
is exactly the C loop (which terminates because every `again` pass frees at
least one occupied slot). -/
def drainLoopFuel (f : Nat) : Nat → List Chunk → Nat → List Char → DrainOut
  | 0, cs, c, b => ⟨cs, c, b, true, []⟩
  | fuel + 1, cs, c, b =>
    let r := drainPass f cs c b
    if r.again then
      let r2 := drainLoopFuel f fuel r.chunks r.currentSeq r.body
      { r2 with log := r.log ++ r2.log }
    else r

/-- The drain loop of `processChunks_Guppy_` (guppy.c:150-163). -/
def drainLoop (f : Nat) (cs : List Chunk) (c : Nat) (b : List Char) : DrainOut :=
  drainLoopFuel f (occupied cs + 1) cs c b

/-- `processChunks_Guppy_` (guppy.c:148-168): run the drain loop, then set
state `finished` if the terminator is known and everything before it has
been delivered.  Also returns the list of chunks appended (the
`notifyUpdate` signal of the C code is `log ≠ []`). -/
def processChunks (d : Guppy) : Guppy × List Chunk :=
  let r := drainLoop d.firstSeq d.chunks d.currentSeq d.body
  let d := { d with chunks := r.chunks, currentSeq := r.currentSeq, body := r.body }
  (if d.lastSeq ≠ 0 ∧ d.currentSeq = d.lastSeq - 1 then { d with state := .finished } else d,
   r.log)

/-- `indexOfCStr_String(&header, "\r\n")` plus the split of the read into
header (before the first CRLF) and payload (everything after): returns
`none` when no CRLF occurs. -/
def splitCrlf : List Char → Option (List Char × List Char)
  | [] => Option.none
  | '\r' :: '\n' :: rest => some ([], rest)
  | ch :: rest => (splitCrlf rest).map fun p => (ch :: p.1, p.2)

/-- Numeric value of a digit character. -/
def digitVal (ch : Char) : Nat := ch.toNat - '0'.toNat

/-- Value of a digit string, most significant first (`toInt_String` on the
capture of `([0-9]+)`). -/
def natOfDigits (ds : List Char) : Nat := ds.foldl (fun n ch => n * 10 + digitVal ch) 0

/-- The regex match `^([0-9]+)(.*)` on the header line: the maximal digit
prefix (must be non-empty) is capture 1, the remainder capture 2. -/
def parseHeader (s : List Char) : Option (Nat × List Char) :=
  let ds := s.takeWhile Char.isDigit
  if ds = [] then Option.none else some (natOfDigits ds, s.drop ds.length)

/-- `ack_Guppy_`: the line `"%d\r\n"` written to the socket. -/
def ackLine (seq : Nat) : List Char := Nat.toDigits 10 seq ++ ['\r', '\n']

/-- The stripping of the single leading separator character from the captured
remainder (guppy.c:187-190: `mid_String(meta, 1, metaLength - 1)` when the
capture is non-empty). -/
def stripSep (rest : List Char) : List Char :=
  if 0 < rest.length then rest.drop 1 else rest

/-- The status switch of `processResponse_Guppy` (guppy.c:185-215): run only
while `firstSeq` is unset; the single leading separator of the captured
remainder is stripped (`mid_String(meta, 1, len-1)`); codes 0/5 discard the
remainder (the local `meta` is cleared, the session's is untouched), 1/3
capture it, 4 captures nothing, every other value stores it and sets
`inProgress`. -/
def statusLine (d : Guppy) (seq : Nat) (rest : List Char) : Guppy :=
  if d.firstSeq = 0 then
    let meta := stripSep rest
    if seq = 0 ∨ seq = 5 then { d with state := .invalidResponse }
    else if seq = 1 then { d with state := .inputRequired, meta := meta }
    else if seq = 3 then { d with state := .redirect, meta := meta }
    else if seq = 4 then { d with state := .error }
    else { d with state := .inProgress, meta := meta }
  else d

/-- guppy.c:184-227: the body of `processResponse_Guppy` after a successful
regex match — the status switch (only while `firstSeq` is unset), the ack
and store for values ≥ 6, and the drain. -/
def handleHeader (d : Guppy) (seq : Nat) (rest payload : List Char) :
    Guppy × List (List Char) :=
  let d := statusLine d seq rest
  let acks := if 6 ≤ seq then [ackLine seq] else []
  let d := if 6 ≤ seq ∧ d.state = .inProgress then storeChunk d seq payload else d
  ((processChunks d).1, acks)

/-- `processResponse_Guppy` (guppy.c:170-236) on one inbound read `data`.
Returns the new session state and the list of lines written to the socket
(at most one ack).  Empty reads and reads without a CRLF are no-ops; a
header that fails the regex sets `invalidResponse` (and the drain still
runs); otherwise the header is handled by `handleHeader`. -/
def processResponse (d : Guppy) (data : List Char) : Guppy × List (List Char) :=
  if data = [] then (d, [])
  else
    match splitCrlf data with
    | Option.none => (d, [])
    | some (header, payload) =>
      match parseHeader header with
      | Option.none => ((processChunks { d with state := .invalidResponse }).1, [])
      | some (seq, rest) => handleHeader d seq rest payload

/-- The fields of `struct iGuppy` read or written by the timer callback
`retryGuppy_`. -/
structure GuppyTimer where
  firstSent : Nat
  lastSent : Nat
  firstSeq : Nat
  currentSeq : Nat
deriving DecidableEq, Repr

/-- What one timer tick writes to the socket (or the timeout notification). -/
inductive TimerSend where
  | timeout
  | request
  | ack (seq : Nat)
  | idle
deriving DecidableEq, Repr

/-- `retryGuppy_` (guppy.c:69-89): one tick at time `now` with the socket
status.  Returns the action, the updated state and the next timer interval
(0 stops the SDL timer permanently). -/
def retryGuppy (d : GuppyTimer) (connected : Bool) (now : Nat) :
    TimerSend × GuppyTimer × Nat :=
  if d.firstSent + 6000 ≤ now then (.timeout, d, 0)
  else if d.firstSeq = 0 ∧ connected = true ∧ d.lastSent + 1000 ≤ now then
    (.request, { d with lastSent := now }, 100)
  else if d.currentSeq ≠ 0 ∧ d.lastSent + 500 ≤ now then
    (.ack d.currentSeq, { d with lastSent := now }, 100)
  else (.idle, d, 100)

/-- A run of the SDL timer: ticks happen (each with its time and socket
status) until a callback returns interval 0, which removes the timer. -/
def runTimer (d : GuppyTimer) : List (Nat × Bool) → List TimerSend
  | [] => []
  | (now, conn) :: rest =>
    let r := retryGuppy d conn now
    if r.2.2 = 0 then [r.1] else r.1 :: runTimer r.2.1 rest

/-- The reassembly operations a sequence of inbound reads performs on the
session: chunk admissions (`storeChunk_Guppy_`) and drains
(`processChunks_Guppy_`). -/
inductive GuppyOp where
  | store (seq : Nat) (data : List Char)
  | drain
deriving DecidableEq, Repr

/-- Apply one operation, accumulating the instrumentation log of appended
chunks. -/
def applyOp (d : Guppy) (log : List Chunk) : GuppyOp → Guppy × List Chunk
  | .store s p => (storeChunk d s p, log)
  | .drain => let r := processChunks d; (r.1, log ++ r.2)

/-- Apply a sequence of operations. -/
def runOps : Guppy → List Chunk → List GuppyOp → Guppy × List Chunk
  | d, log, [] => (d, log)
  | d, log, op :: rest => let r := applyOp d log op; runOps r.1 r.2 rest

/-! ## Basic facts about `storeChunk` -/

/-- The scan-and-store step only ever modifies the `chunks` field. -/
theorem storeChunkScan_shape (d : Guppy) (s : Nat) (p : List Char) :
    storeChunkScan d s p = { d with chunks := (storeChunkScan d s p).chunks } := by
  simp only [storeChunkScan]
  split
  · rfl
  · split <;> rfl

/-- `storeChunkCore` only ever modifies `lastSeq` and `chunks`. -/
theorem storeChunkCore_shape (d : Guppy) (s : Nat) (p : List Char) :
    storeChunkCore d s p =
      { d with lastSeq := (storeChunkCore d s p).lastSeq,
               chunks := (storeChunkCore d s p).chunks } := by
  simp only [storeChunkCore]
  split
  · rfl
  · split
    · rfl
    · rw [storeChunkScan_shape d s p]

/-- `storeChunk_Guppy_` only ever modifies `firstSeq`, `lastSeq` and `chunks`:
`state`, `meta`, `body` and `currentSeq` are untouched. -/
theorem storeChunk_shape (d : Guppy) (s : Nat) (p : List Char) :
    storeChunk d s p =
      { d with firstSeq := (storeChunk d s p).firstSeq,
               lastSeq := (storeChunk d s p).lastSeq,
               chunks := (storeChunk d s p).chunks } := by
  simp only [storeChunk]
  split
  · rw [storeChunkCore_shape]
  · rw [storeChunkCore_shape]

theorem storeChunk_body (d : Guppy) (s : Nat) (p : List Char) :
    (storeChunk d s p).body = d.body := by
  conv_lhs => rw [storeChunk_shape]

theorem storeChunk_currentSeq (d : Guppy) (s : Nat) (p : List Char) :
    (storeChunk d s p).currentSeq = d.currentSeq := by
  conv_lhs => rw [storeChunk_shape]

theorem storeChunk_state (d : Guppy) (s : Nat) (p : List Char) :
    (storeChunk d s p).state = d.state := by
  conv_lhs => rw [storeChunk_shape]

theorem storeChunk_meta (d : Guppy) (s : Nat) (p : List Char) :
    (storeChunk d s p).meta = d.meta := by
  conv_lhs => rw [storeChunk_shape]

theorem storeChunkCore_firstSeq (d : Guppy) (s : Nat) (p : List Char) :
    (storeChunkCore d s p).firstSeq = d.firstSeq := by
  conv_lhs => rw [storeChunkCore_shape]

/-- `firstSeq` after `storeChunk_Guppy_`: set exactly when it was unset and
the value is representable. -/
theorem storeChunk_firstSeq (d : Guppy) (s : Nat) (p : List Char) :
    (storeChunk d s p).firstSeq =
      if d.firstSeq = 0 ∧ s < INTMAX then s else d.firstSeq := by
  simp only [storeChunk]
  split <;> rw [storeChunkCore_firstSeq]

theorem storeChunkScan_lastSeq (d : Guppy) (s : Nat) (p : List Char) :
    (storeChunkScan d s p).lastSeq = d.lastSeq := by
  conv_lhs => rw [storeChunkScan_shape]

/-- `lastSeq` after `storeChunk_Guppy_`: set exactly by the terminator (empty
payload while `lastSeq` is unset). -/
theorem storeChunk_lastSeq (d : Guppy) (s : Nat) (p : List Char) :
    (storeChunk d s p).lastSeq =
      if d.lastSeq = 0 ∧ p = [] then s else d.lastSeq := by
  simp only [storeChunk]
  have core : ∀ e : Guppy, e.lastSeq = d.lastSeq →
      (storeChunkCore e s p).lastSeq = if d.lastSeq = 0 ∧ p = [] then s else d.lastSeq := by
    intro e he
    by_cases h : e.lastSeq = 0 ∧ p = []
    · rw [he] at h
      simp only [storeChunkCore, he, if_pos h, if_pos h]
    · rw [he] at h
      rw [if_neg h]
      simp only [storeChunkCore, he, if_neg h]
      split
      · exact he
      · rw [storeChunkScan_lastSeq]; exact he
  split <;> exact core _ rfl

/-- The terminator branch of `storeChunk_Guppy_` stores nothing. -/
theorem storeChunk_chunks_term (d : Guppy) (s : Nat) (p : List Char)
    (hl : d.lastSeq = 0) (hp : p = []) : (storeChunk d s p).chunks = d.chunks := by
  simp only [storeChunk, storeChunkCore]
  split <;> · rw [if_pos ⟨hl, hp⟩]

/-- The `found` flag of the scan loop is set iff some slot already holds
`seq` (the loop breaks at the first such slot). -/
theorem scanGo_found (f l s : Nat) :
    ∀ (cs : List Chunk) (i : Nat) (slot : Option Nat) (m : Int) (ms : Option Nat),
      (scanGo f l s cs i slot m ms).1 = true ↔ ∃ x ∈ cs, x.seq = s := by
  intro cs
  induction cs with
  | nil => intro i slot m ms; simp [scanGo]
  | cons x rest ih =>
    intro i slot m ms
    by_cases hx : x.seq = s
    · simp [scanGo, hx]
    · simp only [scanGo, if_neg hx]
      rw [ih]
      simp [hx]

/-! ## The drain loop: what one pass and the full loop append -/

/-- The sequence number the drain loop delivers next: `firstSeq` while
`currentSeq` is unset, else `currentSeq + 1`. -/
def startOf (c f : Nat) : Nat := if c = 0 then f else c + 1

/-- Everything one pass of the drain loop guarantees: the body is extended by
exactly the logged payloads, the logged sequence numbers are consecutive
from `startOf c f`, `currentSeq` ends on the last logged number, the log
entries are positive-sequence slots taken from the buffer, consumed slots
are freed (occupied count drops by the log length), and `again` is only
raised if something was consumed. -/
def PassSpec (f c : Nat) (cs : List Chunk) (b : List Char) (a : Bool) (r : DrainOut) : Prop :=
  r.body = b ++ (r.log.map Chunk.data).flatten ∧
  r.log.map Chunk.seq = List.range' (startOf c f) r.log.length ∧
  r.currentSeq = (if r.log = [] then c else startOf c f + r.log.length - 1) ∧
  (∀ x ∈ r.log, 0 < x.seq) ∧
  (r.log ≠ [] → 0 < startOf c f) ∧
  r.chunks.length = cs.length ∧
  occupied r.chunks + r.log.length = occupied cs ∧
  (r.again = true → a = true ∨ r.log ≠ []) ∧
  (∀ x ∈ r.log, x ∈ cs) ∧
  (∀ x ∈ r.chunks, x ∈ cs ∨ x = (⟨0, []⟩ : Chunk)) ∧
  c ≤ r.currentSeq

theorem occupied_nil : occupied [] = 0 := rfl

theorem occupied_cons (x : Chunk) (t : List Chunk) :
    occupied (x :: t) = (if x.seq = 0 then 0 else 1) + occupied t := by
  simp only [occupied, List.filter_cons]
  split <;> split <;> simp_all <;> omega

theorem drainPassGo_spec (f n : Nat) :
    ∀ (cs : List Chunk) (i c : Nat) (b : List Char) (a : Bool),
      PassSpec f c cs b a (drainPassGo f n cs i c b a) := by
  intro cs
  induction cs with
  | nil =>
    intro i c b a
    refine ⟨?_, ?_, ?_, ?_, ?_, ?_, ?_, ?_, ?_, ?_, ?_⟩ <;>
      simp [drainPassGo, occupied_nil]
  | cons x rest ih =>
    intro i c b a
    by_cases h : drainCond f c x.seq
    · have hseq : x.seq = startOf c f := by
        rcases h with ⟨hc, _, hs⟩ | ⟨hc, hf, hs⟩ <;> simp [startOf, hc, hs]
      have hpos : 0 < x.seq := by
        rcases h with ⟨hc, _, hs⟩ | ⟨_, hf, hs⟩ <;> omega
      obtain ⟨hb, hlseq, hcs, hlpos, hstpos, hlen, hocc, hagain, hlmem, hcmem, hmono⟩ :=
        ih (i + 1) x.seq (b ++ x.data) (decide (i < n - 1))
      have hstart' : startOf x.seq f = x.seq + 1 := by
        simp [startOf, Nat.pos_iff_ne_zero.mp hpos]
      simp only [drainPassGo, if_pos h]
      refine ⟨?_, ?_, ?_, ?_, ?_, ?_, ?_, ?_, ?_, ?_, ?_⟩
      · dsimp only
        rw [hb]
        simp [List.append_assoc]
      · dsimp only
        rw [List.map_cons, List.length_cons, List.range'_succ, hlseq, hstart', ← hseq]
      · dsimp only
        rw [hcs, hstart']
        by_cases hl : (drainPassGo f n rest (i + 1) x.seq (b ++ x.data)
            (decide (i < n - 1))).log = []
        · rw [if_pos hl, if_neg (List.cons_ne_nil x _), hl]
          simp [hseq]
        · rw [if_neg hl, if_neg (List.cons_ne_nil x _)]
          simp only [List.length_cons]
          omega
      · intro y hy
        rcases List.mem_cons.mp hy with rfl | hy'
        · exact hpos
        · exact hlpos y hy'
      · intro _; omega
      · dsimp only
        simpa using hlen
      · dsimp only
        rw [occupied_cons, occupied_cons]
        have hx0 : ¬ x.seq = 0 := by omega
        rw [if_neg hx0, if_pos rfl]
        simp only [List.length_cons]
        omega
      · intro hag
        exact Or.inr (List.cons_ne_nil x _)
      · intro y hy
        rcases List.mem_cons.mp hy with rfl | hy'
        · exact List.mem_cons_self _ _
        · exact List.mem_cons_of_mem _ (hlmem y hy')
      · intro y hy
        rcases List.mem_cons.mp hy with rfl | hy'
        · exact Or.inr rfl
        · rcases hcmem y hy' with h' | h'
          · exact Or.inl (List.mem_cons_of_mem _ h')
          · exact Or.inr h'
      · dsimp only
        have hcx : c ≤ x.seq := by
          rcases h with ⟨hc, _, hs⟩ | ⟨hc, _, _⟩ <;> omega
        omega
    · obtain ⟨hb, hlseq, hcs, hlpos, hstpos, hlen, hocc, hagain, hlmem, hcmem, hmono⟩ :=
        ih (i + 1) c b a
      simp only [drainPassGo, if_neg h]
      refine ⟨hb, hlseq, hcs, hlpos, hstpos, ?_, ?_, hagain, ?_, ?_, hmono⟩
      · dsimp only
        simpa using hlen
      · dsimp only
        rw [occupied_cons, occupied_cons]
        omega
      · intro y hy
        exact List.mem_cons_of_mem _ (hlmem y hy)
      · intro y hy
        rcases List.mem_cons.mp hy with rfl | hy'
        · exact Or.inl (List.mem_cons_self _ _)
        · rcases hcmem y hy' with h' | h'
          · exact Or.inl (List.mem_cons_of_mem _ h')
          · exact Or.inr h'

/-- What the full `do … while (again)` loop guarantees (same clauses as
`PassSpec`, composed over the passes). -/
def LoopSpec (f c : Nat) (cs : List Chunk) (b : List Char) (r : DrainOut) : Prop :=
  r.body = b ++ (r.log.map Chunk.data).flatten ∧
  r.log.map Chunk.seq = List.range' (startOf c f) r.log.length ∧
  r.currentSeq = (if r.log = [] then c else startOf c f + r.log.length - 1) ∧
  (∀ x ∈ r.log, 0 < x.seq) ∧
  (r.log ≠ [] → 0 < startOf c f) ∧
  r.chunks.length = cs.length ∧
  occupied r.chunks + r.log.length = occupied cs ∧
  (∀ x ∈ r.log, x ∈ cs) ∧
  (∀ x ∈ r.chunks, x ∈ cs ∨ x = (⟨0, []⟩ : Chunk)) ∧
  c ≤ r.currentSeq

theorem drainPass_spec (f : Nat) (cs : List Chunk) (c : Nat) (b : List Char) :
    PassSpec f c cs b false (drainPass f cs c b) :=
  drainPassGo_spec f cs.length cs 0 c b false

theorem drainLoopFuel_spec (f : Nat) :
    ∀ (fuel : Nat) (cs : List Chunk) (c : Nat) (b : List Char),
      LoopSpec f c cs b (drainLoopFuel f fuel cs c b) := by
  intro fuel
  induction fuel with
  | zero =>
    intro cs c b
    exact ⟨by simp [drainLoopFuel], by simp [drainLoopFuel], by simp [drainLoopFuel],
      by simp [drainLoopFuel], by simp [drainLoopFuel], rfl, rfl,
      by simp [drainLoopFuel], fun x hx => Or.inl hx, le_refl c⟩
  | succ fuel ih =>
    intro cs c b
    obtain ⟨pb, plseq, pcs, plpos, pstpos, plen, pocc, pagain, plmem, pcmem, pmono⟩ :=
      drainPass_spec f cs c b
    simp only [drainLoopFuel]
    by_cases hag : (drainPass f cs c b).again = true
    · rw [if_pos hag]
      obtain ⟨qb, qlseq, qcs, qlpos, qstpos, qlen, qocc, qlmem, qcmem, qmono⟩ :=
        ih (drainPass f cs c b).chunks (drainPass f cs c b).currentSeq
          (drainPass f cs c b).body
      set p := drainPass f cs c b with hp
      set q := drainLoopFuel f fuel p.chunks p.currentSeq p.body with hq
      refine ⟨?_, ?_, ?_, ?_, ?_, ?_, ?_, ?_, ?_, ?_⟩
      · dsimp only
        rw [qb, pb]
        simp [List.append_assoc]
      · dsimp only
        rw [List.map_append, plseq, qlseq, List.length_append]
        by_cases hne : p.log = []
        · have hc1 : p.currentSeq = c := by rw [pcs, if_pos hne]
          rw [hc1, hne]
          simp
        · have h2 : 1 ≤ p.log.length := by
            cases hlp : p.log with
            | nil => exact absurd hlp hne
            | cons u v => simp
          have hs1 := pstpos hne
          have hc1 : p.currentSeq = startOf c f + p.log.length - 1 := by
            rw [pcs, if_neg hne]
          have hcpos : p.currentSeq ≠ 0 := by omega
          have hst2 : startOf p.currentSeq f = p.currentSeq + 1 := by
            simp [startOf, hcpos]
          rw [hst2, hc1]
          have harr : startOf c f + p.log.length - 1 + 1 = startOf c f + p.log.length := by
            omega
          rw [harr, List.range'_append_1, Nat.add_comm q.log.length p.log.length]
      · dsimp only
        by_cases hne : p.log = []
        · have hc1 : p.currentSeq = c := by rw [pcs, if_pos hne]
          rw [qcs, hc1, hne]
          simp only [List.nil_append]
        · have h2 : 1 ≤ p.log.length := by
            cases hlp : p.log with
            | nil => exact absurd hlp hne
            | cons u v => simp
          have hs1 := pstpos hne
          have hc1 : p.currentSeq = startOf c f + p.log.length - 1 := by
            rw [pcs, if_neg hne]
          have hcpos : p.currentSeq ≠ 0 := by omega
          have hst2 : startOf p.currentSeq f = p.currentSeq + 1 := by
            simp [startOf, hcpos]
          have happ : p.log ++ q.log ≠ [] := by simp [hne]
          rw [qcs, if_neg happ, List.length_append]
          by_cases hne2 : q.log = []
          · have hq0 : q.log.length = 0 := by rw [hne2]; rfl
            rw [if_pos hne2, hc1, hq0]
            omega
          · rw [if_neg hne2, hst2, hc1]
            omega
      · intro y hy
        rcases List.mem_append.mp hy with hy' | hy'
        · exact plpos y hy'
        · exact qlpos y hy'
      · intro hne
        by_cases hne1 : p.log = []
        · have hq2 : q.log ≠ [] := by
            intro h0
            exact hne (by simp [hne1, h0])
          have h3 := qstpos hq2
          have hc1 : p.currentSeq = c := by rw [pcs, if_pos hne1]
          rwa [hc1] at h3
        · exact pstpos hne1
      · dsimp only
        rw [qlen, plen]
      · dsimp only
        rw [List.length_append]
        omega
      · intro y hy
        rcases List.mem_append.mp hy with hy' | hy'
        · exact plmem y hy'
        · rcases pcmem y (qlmem y hy') with h' | h'
          · exact h'
          · have h4 := qlpos y hy'
            rw [h'] at h4
            exact absurd h4 (by simp)
      · intro y hy
        rcases qcmem y hy with h' | h'
        · exact pcmem y h'
        · exact Or.inr h'
      · dsimp only
        omega
    · rw [if_neg hag]
      exact ⟨pb, plseq, pcs, plpos, pstpos, plen, pocc, plmem, pcmem, pmono⟩

/-- An `again` pass consumed at least one occupied slot: the C loop's
termination measure. -/
theorem drainPass_again_occupied (f : Nat) (cs : List Chunk) (c : Nat) (b : List Char)
    (hag : (drainPass f cs c b).again = true) :
    occupied (drainPass f cs c b).chunks < occupied cs := by
  obtain ⟨_, _, _, _, _, _, pocc, pagain, _, _, _⟩ := drainPass_spec f cs c b
  rcases pagain hag with h | h
  · exact absurd h (by simp)
  · have : 1 ≤ (drainPass f cs c b).log.length := by
      cases hlp : (drainPass f cs c b).log with
      | nil => exact absurd hlp h
      | cons u v => simp
    omega

/-- Any fuel above the occupied-slot count gives the same result: the fuel in
`drainLoop` is enough, and the model is exactly the unbounded C loop. -/
theorem drainLoopFuel_stable (f : Nat) :
    ∀ (fuel₁ fuel₂ : Nat) (cs : List Chunk) (c : Nat) (b : List Char),
      occupied cs < fuel₁ → occupied cs < fuel₂ →
      drainLoopFuel f fuel₁ cs c b = drainLoopFuel f fuel₂ cs c b := by
  intro fuel₁
  induction fuel₁ with
  | zero => intro fuel₂ cs c b h1 _; omega
  | succ fuel₁ ih =>
    intro fuel₂ cs c b h1 h2
    cases fuel₂ with
    | zero => omega
    | succ fuel₂ =>
      simp only [drainLoopFuel]
      by_cases hag : (drainPass f cs c b).again = true
      · rw [if_pos hag, if_pos hag]
        have hlt := drainPass_again_occupied f cs c b hag
        rw [ih fuel₂ (drainPass f cs c b).chunks (drainPass f cs c b).currentSeq
          (drainPass f cs c b).body (by omega) (by omega)]
      · rw [if_neg hag, if_neg hag]

theorem drainLoop_spec (f : Nat) (cs : List Chunk) (c : Nat) (b : List Char) :
    LoopSpec f c cs b (drainLoop f cs c b) :=
  drainLoopFuel_spec f (occupied cs + 1) cs c b

/-! ## `processChunks_Guppy_` as a session operation -/

theorem processChunks_fields (d : Guppy) :
    (processChunks d).1.meta = d.meta ∧ (processChunks d).1.firstSeq = d.firstSeq ∧
    (processChunks d).1.lastSeq = d.lastSeq ∧
    (processChunks d).1.chunks = (drainLoop d.firstSeq d.chunks d.currentSeq d.body).chunks ∧
    (processChunks d).1.currentSeq
        = (drainLoop d.firstSeq d.chunks d.currentSeq d.body).currentSeq ∧
    (processChunks d).1.body = (drainLoop d.firstSeq d.chunks d.currentSeq d.body).body ∧
    (processChunks d).2 = (drainLoop d.firstSeq d.chunks d.currentSeq d.body).log := by
  unfold processChunks
  dsimp only
  split <;> exact ⟨rfl, rfl, rfl, rfl, rfl, rfl, rfl⟩

/-- The `finished` check of `processChunks_Guppy_` in terms of the drain
result. -/
theorem processChunks_state (d : Guppy) :
    (processChunks d).1.state =
      if d.lastSeq ≠ 0 ∧
          (drainLoop d.firstSeq d.chunks d.currentSeq d.body).currentSeq = d.lastSeq - 1
      then .finished else d.state := by
  unfold processChunks
  dsimp only
  split <;> rfl

/-- Without a known terminator the drain never finishes the session. -/
theorem processChunks_state_of_lastSeq_zero (d : Guppy) (h : d.lastSeq = 0) :
    (processChunks d).1.state = d.state := by
  rw [processChunks_state, if_neg]
  intro hc
  exact hc.1 h

/-- A pass over slots none of which satisfies the append guard is the
identity. -/
theorem drainPassGo_no_match (f n c : Nat) :
    ∀ (cs : List Chunk), (∀ x ∈ cs, ¬ drainCond f c x.seq) →
      ∀ (i : Nat) (b : List Char) (a : Bool),
        drainPassGo f n cs i c b a = ⟨cs, c, b, a, []⟩ := by
  intro cs
  induction cs with
  | nil => intro _ i b a; rfl
  | cons x rest ih =>
    intro hno i b a
    have hx : ¬ drainCond f c x.seq := hno x (List.mem_cons_self _ _)
    simp only [drainPassGo, if_neg hx]
    rw [ih (fun y hy => hno y (List.mem_cons_of_mem _ hy)) (i + 1) b a]

/-- The loop on such a buffer stops after its first pass without doing
anything. -/
theorem drainLoop_no_match (f c : Nat) (cs : List Chunk) (b : List Char)
    (hno : ∀ x ∈ cs, ¬ drainCond f c x.seq) :
    drainLoop f cs c b = ⟨cs, c, b, false, []⟩ := by
  unfold drainLoop drainLoopFuel
  rw [show drainPass f cs c b = ⟨cs, c, b, false, []⟩ from
    drainPassGo_no_match f cs.length c cs hno 0 b false]
  rfl

/-- A free slot (`seq = 0`) never matches the append guard. -/
theorem drainCond_not_zero (f c : Nat) : ¬ drainCond f c 0 := by
  intro h
  rcases h with ⟨hc, _, hs⟩ | ⟨_, hf, hs⟩ <;> omega

/-- While both watermarks are unset nothing can be appended. -/
theorem drainCond_not_of_unset (f c s : Nat) (hf : f = 0) (hc : c = 0) :
    ¬ drainCond f c s := by
  intro h
  rcases h with ⟨h1, _, _⟩ | ⟨_, h2, _⟩ <;> omega

/-! ## Concrete scenario states -/

/-- The four reads of the spec's end-to-end scenario, applied in order to a
freshly opened session. -/
def c1d1 : Guppy × List (List Char) :=
  processResponse (openGuppy initGuppy) ("6 hello\r\nAB".toList)

def c1d2 : Guppy × List (List Char) := processResponse c1d1.1 ("8\r\nEF".toList)

def c1d3 : Guppy × List (List Char) := processResponse c1d2.1 ("7\r\nCD".toList)

def c1d4 : Guppy × List (List Char) := processResponse c1d3.1 ("9\r\n".toList)

/-- C1: end-to-end scenario.  From a freshly opened session, the read
`"6 hello\r\nAB"` sets state `inProgress`, sends ack `"6\r\n"` and leaves
`body = "AB"` with `currentSeq = 6`; chunk 8 (`"EF"`) is buffered with body
and `currentSeq` unchanged; chunk 7 (`"CD"`) drains both buffered chunks so
`body = "ABCDEF"` and `currentSeq = 8`; the terminator with seq 9 and empty
payload sets `lastSeq = 9` and, as `currentSeq = 8 = lastSeq - 1`, state
becomes `finished`. -/
theorem c1_end_to_end_scenario :
    (c1d1.1.state = .inProgress ∧ c1d1.2 = ["6\r\n".toList] ∧
      c1d1.1.body = "AB".toList ∧ c1d1.1.currentSeq = 6) ∧
    (c1d2.1.body = "AB".toList ∧ c1d2.1.currentSeq = 6 ∧
      (⟨8, "EF".toList⟩ : Chunk) ∈ c1d2.1.chunks ∧ c1d2.1.state = .inProgress) ∧
    (c1d3.1.body = "ABCDEF".toList ∧ c1d3.1.currentSeq = 8 ∧
      c1d3.1.state = .inProgress) ∧
    (c1d4.1.lastSeq = 9 ∧ c1d4.1.currentSeq = 8 ∧ c1d4.1.state = .finished) := by
  decide

/-- The two reads demonstrating that a terminal state set by the first status
line is not sticky: `"1 x"` makes the session `inputRequired`, but since
`firstSeq` is still the sentinel, the next header re-runs the status
switch. -/
def c2d1 : Guppy × List (List Char) :=
  processResponse (openGuppy initGuppy) ("1 x\r\n".toList)

def c2d2 : Guppy × List (List Char) := processResponse c2d1.1 ("7\r\nAB".toList)

/-- C2: the spec's invariant "state transitions are one-directional: once a
terminal value is set it is never overwritten" fails on the code.  After the
status line `"1 x\r\n"` the state is the terminal `inputRequired`, yet the
next read `"7\r\nAB"` — whose header value 7 should be a chunk — is
re-interpreted as a status line because `firstSeq` is still 0 (guppy.c:185
tests `!d->firstSeq`, and the status branch for seq 1 never sets it), moving
the state back to `inProgress` and even storing and delivering the payload.
The dead local `first` at guppy.c:182/209 shows the author intended to track
"first recognized header" explicitly but never used it; the claim matches
the documented invariant, so this is recorded as a code bug. -/
theorem c2_terminal_state_overwritten :
    c2d1.1.state = .inputRequired ∧ c2d1.1.meta = "x".toList ∧
    c2d2.1.state = .inProgress ∧ c2d2.1.body = "AB".toList := by
  decide

/-- A reachable buffer (capacity 10): chunk 6 was delivered (`currentSeq = 6`,
`body = "AB"`), chunks 8..16 then filled slots 0..8, and chunk 7 has just
been stored in the last slot. -/
def c4State : Guppy :=
  { state := .inProgress, meta := [], body := "AB".toList,
    chunks := [⟨8, "EF".toList⟩, ⟨9, "a".toList⟩, ⟨10, "b".toList⟩, ⟨11, "c".toList⟩,
      ⟨12, "d".toList⟩, ⟨13, "e".toList⟩, ⟨14, "f".toList⟩, ⟨15, "g".toList⟩,
      ⟨16, "h".toList⟩, ⟨7, "CD".toList⟩],
    firstSeq := 6, lastSeq := 0, currentSeq := 6 }

/-- C4 counterexample: a single drain call does not always exhaust the
consecutively deliverable chunks.  Here chunk 7 sits in the last slot, so
its append sets `again = i < N-1 = false` (guppy.c:160) and the loop stops:
after the call `currentSeq = 7` while slot 0 still holds chunk 8 =
`currentSeq + 1`, contradicting "after drain returns no slot holds
`seq == currentSeq + 1`". -/
theorem c4_counterexample :
    (processChunks c4State).1.currentSeq = 7 ∧
    (⟨8, "EF".toList⟩ : Chunk) ∈ (processChunks c4State).1.chunks := by
  decide

/-- A buffer already holding chunk 7 with payload `"XY"`. -/
def c5State : Guppy :=
  { state := .inProgress, meta := [], body := "AB".toList,
    chunks := ⟨7, "XY".toList⟩ :: List.replicate 9 (⟨0, []⟩ : Chunk),
    firstSeq := 6, lastSeq := 0, currentSeq := 6 }

/-- C5 counterexample: a duplicate in-window admission does not overwrite the
slot.  Chunk 7 is already buffered with payload `"XY"`; admitting chunk 7
again with payload `"ZW"` leaves the whole session unchanged — the slot
still carries `"XY"`, not the newly supplied payload — because the store at
guppy.c:141-144 is guarded by `!found`. -/
theorem c5_counterexample :
    storeChunk c5State 7 ("ZW".toList) = c5State ∧
    c5State.chunks.head? = some ⟨7, "XY".toList⟩ := by
  decide

/-- The session after a terminator-first admission: the very first chunk
handed to `storeChunk_Guppy_` has seq 9 and an empty payload. -/
def c10d1 : Guppy := storeChunk (openGuppy initGuppy) 9 []

/-- C10 counterexample: after the empty-payload first chunk sets
`firstSeq = lastSeq = 9`, the claim says every later chunk is rejected and
`body` stays empty — but a chunk with the same sequence number 9 and a
non-empty payload is inside the window (`seq ≤ currentSeq` fails since
`currentSeq = 0`, `seq ≥ firstSeq` and `seq ≤ lastSeq` hold), so it is
stored and then drained into `body`. -/
theorem c10_counterexample :
    c10d1.firstSeq = 9 ∧ c10d1.lastSeq = 9 ∧
    (processChunks (storeChunk c10d1 9 ("XX".toList))).1.body = "XX".toList := by
  decide

/-- C4 (amended): what a single drain call does append is exactly a
consecutive run: the body is extended by the logged payloads in order, the
appended sequence numbers are `startOf currentSeq firstSeq, +1, +2, …` with
no gaps and no duplication, every appended chunk was in the buffer, and
`currentSeq` advances to the last appended number (the full-drain part of
the original claim is refuted by the counterexample above). -/
theorem c4_amended_drain_consecutive (d : Guppy) :
    (processChunks d).1.body = d.body ++ ((processChunks d).2.map Chunk.data).flatten ∧
    (processChunks d).2.map Chunk.seq
        = List.range' (startOf d.currentSeq d.firstSeq) (processChunks d).2.length ∧
    (∀ x ∈ (processChunks d).2, x ∈ d.chunks) ∧
    d.currentSeq ≤ (processChunks d).1.currentSeq ∧
    (processChunks d).1.currentSeq =
      (if (processChunks d).2 = [] then d.currentSeq
       else startOf d.currentSeq d.firstSeq + (processChunks d).2.length - 1) := by
  obtain ⟨hm, hf, hl, hc, hcs, hb, hlog⟩ := processChunks_fields d
  obtain ⟨sb, slseq, scs, slpos, sstpos, slen, socc, slmem, scmem, smono⟩ :=
    drainLoop_spec d.firstSeq d.chunks d.currentSeq d.body
  refine ⟨?_, ?_, ?_, ?_, ?_⟩
  · rw [hb, hlog, sb]
  · rw [hlog, slseq]
  · rw [hlog]; exact slmem
  · rw [hcs]; exact smono
  · rw [hcs, hlog, scs]

theorem c4_amended_drain_consecutive_witness :
    c4State.currentSeq ≤ (processChunks c4State).1.currentSeq :=
  (c4_amended_drain_consecutive c4State).2.2.2.1

/-- C5 (amended): an in-window admission whose sequence number is already
buffered is a duplicate drop, not a refresh: `storeChunk_Guppy_` leaves the
whole session unchanged (the store is guarded by `!found`), so the slot
keeps its originally stored payload. -/
theorem c5_amended_duplicate_noop (d : Guppy) (s : Nat) (p : List Char)
    (hf : d.firstSeq ≠ 0) (ht : d.lastSeq ≠ 0 ∨ p ≠ [])
    (hdup : ∃ x ∈ d.chunks, x.seq = s) :
    storeChunk d s p = d := by
  unfold storeChunk
  rw [if_neg (fun hx => hf hx.1)]
  unfold storeChunkCore
  rw [if_neg (fun hx => by rcases ht with h | h; exacts [h hx.1, h hx.2])]
  by_cases hrej : (d.currentSeq ≠ 0 ∧ s ≤ d.currentSeq) ∨ (d.firstSeq ≠ 0 ∧ s < d.firstSeq) ∨
      (d.lastSeq ≠ 0 ∧ d.lastSeq < s)
  · rw [if_pos hrej]
  · rw [if_neg hrej]
    simp only [storeChunkScan]
    rw [if_pos ((scanGo_found d.firstSeq d.lastSeq s d.chunks 0 Option.none (-1)
      Option.none).mpr hdup)]

theorem c5_amended_duplicate_noop_witness :
    storeChunk c5State 7 ("ZW".toList) = c5State :=
  c5_amended_duplicate_noop c5State 7 ("ZW".toList) (by decide) (Or.inr (by decide))
    (by decide)

/-- Every slot of a fresh buffer is free, so the drain loop is a no-op on it. -/
theorem drainLoop_fresh (f : Nat) (b : List Char) :
    drainLoop f freshChunks 0 b = ⟨freshChunks, 0, b, false, []⟩ := by
  apply drainLoop_no_match
  intro x hx
  have hx0 : x = (⟨0, []⟩ : Chunk) := List.eq_of_mem_replicate hx
  rw [hx0]
  exact drainCond_not_zero f 0

/-- After storing a first chunk with value `v â¥ 6` into a session that is
`inProgress` with a fresh buffer and unset `lastSeq`/`currentSeq`, the drain
cannot finish the session: the state stays `inProgress` and `meta` is
untouched. -/
theorem processChunks_storeChunk_fresh (e : Guppy) (v : Nat) (p : List Char)
    (h6 : 6 ≤ v) (hst : e.state = .inProgress) (hl : e.lastSeq = 0)
    (hc : e.currentSeq = 0) (hch : e.chunks = freshChunks) :
    (processChunks (storeChunk e v p)).1.state = .inProgress ∧
    (processChunks (storeChunk e v p)).1.meta = e.meta := by
  have hmeta : (processChunks (storeChunk e v p)).1.meta = e.meta := by
    rw [(processChunks_fields _).1, storeChunk_meta]
  by_cases hpay : p = []
  · have hl2 : (storeChunk e v p).lastSeq = v := by
      rw [storeChunk_lastSeq]
      exact if_pos ⟨hl, hpay⟩
    have hch2 : (storeChunk e v p).chunks = freshChunks := by
      rw [storeChunk_chunks_term e v p hl hpay]
      exact hch
    have hc2 : (storeChunk e v p).currentSeq = 0 := by
      rw [storeChunk_currentSeq]
      exact hc
    have hnot : ¬ ((storeChunk e v p).lastSeq ≠ 0 ∧
        (drainLoop (storeChunk e v p).firstSeq (storeChunk e v p).chunks
          (storeChunk e v p).currentSeq (storeChunk e v p).body).currentSeq
          = (storeChunk e v p).lastSeq - 1) := by
      rw [hch2, hc2, drainLoop_fresh, hl2]
      intro hcond
      have h9 := hcond.2
      dsimp only at h9
      omega
    refine ⟨?_, hmeta⟩
    rw [processChunks_state, if_neg hnot, storeChunk_state]
    exact hst
  · have hl2 : (storeChunk e v p).lastSeq = 0 := by
      rw [storeChunk_lastSeq, if_neg (fun hx => hpay hx.2)]
      exact hl
    refine ⟨?_, hmeta⟩
    rw [processChunks_state_of_lastSeq_zero _ hl2, storeChunk_state]
    exact hst

/-- C3: the status-code mapping of the first recognized header.  On a fresh
session (all watermarks at the sentinel, empty meta, fresh buffer), a read
whose header parses as value `v` with remainder `rest` ends with: 0/5 →
`invalidResponse`, remainder discarded; 1 → `inputRequired`, remainder
captured with its single leading separator stripped; 3 → `redirect`,
remainder captured and stripped; 4 → `error`, nothing captured; every other
value → `inProgress`, remainder captured and stripped. -/
theorem c3_status_mapping (d : Guppy) (data header payload : List Char) (v : Nat)
    (rest : List Char)
    (hfresh : d.firstSeq = 0) (hc : d.currentSeq = 0) (hl : d.lastSeq = 0)
    (hm : d.meta = []) (hch : d.chunks = freshChunks)
    (hsplit : splitCrlf data = some (header, payload))
    (hparse : parseHeader header = some (v, rest)) :
    ((v = 0 ∨ v = 5) → (processResponse d data).1.state = .invalidResponse ∧
        (processResponse d data).1.meta = []) ∧
    (v = 1 → (processResponse d data).1.state = .inputRequired ∧
        (processResponse d data).1.meta = stripSep rest) ∧
    (v = 3 → (processResponse d data).1.state = .redirect ∧
        (processResponse d data).1.meta = stripSep rest) ∧
    (v = 4 → (processResponse d data).1.state = .error ∧
        (processResponse d data).1.meta = []) ∧
    (v ≠ 0 → v ≠ 1 → v ≠ 3 → v ≠ 4 → v ≠ 5 →
        (processResponse d data).1.state = .inProgress ∧
        (processResponse d data).1.meta = stripSep rest) := by
  have hd : data ≠ [] := by
    intro h
    rw [h] at hsplit
    simp [splitCrlf] at hsplit
  have hpr : processResponse d data = handleHeader d v rest payload := by
    unfold processResponse
    rw [if_neg hd, hsplit]
    dsimp only
    rw [hparse]
  have hskip : ∀ w : Nat, ¬ (6 ≤ w ∧ (statusLine d w rest).state = .inProgress) →
      (handleHeader d w rest payload).1 = (processChunks (statusLine d w rest)).1 := by
    intro w hw
    show (processChunks (if 6 ≤ w ∧ (statusLine d w rest).state = .inProgress
        then storeChunk (statusLine d w rest) w payload
        else statusLine d w rest)).1 = _
    rw [if_neg hw]
  rw [hpr]
  refine ⟨?_, ?_, ?_, ?_, ?_⟩
  · rintro (rfl | rfl) <;>
    · rw [hskip _ (fun hx => by omega)]
      rw [show statusLine d _ rest = { d with state := .invalidResponse } from by
        simp [statusLine, hfresh]]
      exact ⟨processChunks_state_of_lastSeq_zero _ hl,
        ((processChunks_fields _).1).trans hm⟩
  · rintro rfl
    rw [hskip 1 (fun hx => by omega)]
    rw [show statusLine d 1 rest
        = { d with state := .inputRequired, meta := stripSep rest } from by
      simp [statusLine, hfresh]]
    exact ⟨processChunks_state_of_lastSeq_zero _ hl, (processChunks_fields _).1⟩
  · rintro rfl
    rw [hskip 3 (fun hx => by omega)]
    rw [show statusLine d 3 rest
        = { d with state := .redirect, meta := stripSep rest } from by
      simp [statusLine, hfresh]]
    exact ⟨processChunks_state_of_lastSeq_zero _ hl, (processChunks_fields _).1⟩
  · rintro rfl
    rw [hskip 4 (fun hx => by omega)]
    rw [show statusLine d 4 rest = { d with state := .error } from by
      simp [statusLine, hfresh]]
    exact ⟨processChunks_state_of_lastSeq_zero _ hl,
      ((processChunks_fields _).1).trans hm⟩
  · intro h0 h1 h3 h4 h5
    have hsl : statusLine d v rest
        = { d with state := .inProgress, meta := stripSep rest } := by
      simp [statusLine, hfresh, h0, h1, h3, h4, h5]
    by_cases h6 : 6 ≤ v
    · have hmain : (handleHeader d v rest payload).1
          = (processChunks (storeChunk
              { d with state := .inProgress, meta := stripSep rest } v payload)).1 := by
        show (processChunks (if 6 ≤ v ∧ (statusLine d v rest).state = .inProgress
            then storeChunk (statusLine d v rest) v payload
            else statusLine d v rest)).1 = _
        rw [if_pos ⟨h6, by rw [hsl]⟩, hsl]
      rw [hmain]
      exact processChunks_storeChunk_fresh _ v payload h6 rfl hl hc hch
    · rw [hskip v (fun hx => h6 hx.1), hsl]
      exact ⟨processChunks_state_of_lastSeq_zero _ hl, (processChunks_fields _).1⟩

/-- The spec's scenario for C3: the status line `"1 Enter passphrase\r\n"`
makes the session `inputRequired` with prompt text `"Enter passphrase"`. -/
theorem c3_status_mapping_witness :
    (processResponse (openGuppy initGuppy) ("1 Enter passphrase\r\n".toList)).1.state
        = .inputRequired ∧
    (processResponse (openGuppy initGuppy) ("1 Enter passphrase\r\n".toList)).1.meta
        = "Enter passphrase".toList := by
  have h := (c3_status_mapping (openGuppy initGuppy) ("1 Enter passphrase\r\n".toList)
    ("1 Enter passphrase".toList) [] 1 (" Enter passphrase".toList)
    rfl rfl rfl rfl rfl (by decide) (by decide)).2.1 rfl
  refine ⟨h.1, ?_⟩
  rw [h.2]
  decide

/-! ## The window invariant of the reassembly buffer -/

/-- The sequence numbers of the occupied slots. -/
def occSeqs (cs : List Chunk) : List Nat := (cs.map Chunk.seq).filter (fun a => a != 0)

theorem occSeqs_cons_zero {x : Chunk} (t : List Chunk) (h : x.seq = 0) :
    occSeqs (x :: t) = occSeqs t := by
  simp [occSeqs, h]

theorem occSeqs_cons_pos {x : Chunk} (t : List Chunk) (h : x.seq ≠ 0) :
    occSeqs (x :: t) = x.seq :: occSeqs t := by
  simp [occSeqs, h]

theorem mem_occSeqs (a : Nat) (cs : List Chunk) :
    a ∈ occSeqs cs ↔ (∃ x ∈ cs, x.seq = a) ∧ a ≠ 0 := by
  simp [occSeqs, List.mem_filter, List.mem_map, and_comm]

/-- Storing a fresh sequence number into any slot keeps the occupied sequence
numbers distinct. -/
theorem nodupOcc_set (s : Nat) (p : List Char) :
    ∀ (cs : List Chunk) (i : Nat), s ≠ 0 → (∀ x ∈ cs, x.seq ≠ s) →
      (occSeqs cs).Nodup → (occSeqs (cs.set i ⟨s, p⟩)).Nodup := by
  intro cs
  induction cs with
  | nil => intro i _ _ _; simp [occSeqs]
  | cons x t ih =>
    intro i hs hns hnd
    cases i with
    | zero =>
      rw [List.set_cons_zero]
      rw [occSeqs_cons_pos t (show (⟨s, p⟩ : Chunk).seq ≠ 0 from hs)]
      rw [List.nodup_cons]
      constructor
      · intro hmem
        obtain ⟨⟨y, hy, hys⟩, _⟩ := (mem_occSeqs _ _).mp hmem
        exact hns y (List.mem_cons_of_mem _ hy) hys
      · by_cases hx : x.seq = 0
        · rwa [occSeqs_cons_zero t hx] at hnd
        · rw [occSeqs_cons_pos t hx, List.nodup_cons] at hnd
          exact hnd.2
    | succ i =>
      rw [List.set_cons_succ]
      have hns' : ∀ y ∈ t, y.seq ≠ s := fun y hy => hns y (List.mem_cons_of_mem _ hy)
      by_cases hx : x.seq = 0
      · rw [occSeqs_cons_zero _ hx] at hnd ⊢
        exact ih i hs hns' hnd
      · rw [occSeqs_cons_pos _ hx] at hnd ⊢
        rw [List.nodup_cons] at hnd ⊢
        refine ⟨?_, ih i hs hns' hnd.2⟩
        intro hmem
        obtain ⟨⟨y, hy, hys⟩, ha⟩ := (mem_occSeqs _ _).mp hmem
        rcases List.mem_or_eq_of_mem_set hy with hy' | hy'
        · exact hnd.1 ((mem_occSeqs _ _).mpr ⟨⟨y, hy', hys⟩, ha⟩)
        · rw [hy'] at hys
          exact hns x (List.mem_cons_self _ _) hys.symm

/-- The per-slot window bounds: every occupied slot is at least `firstSeq`
(at least `INT_MAX` if a slot was filled while `firstSeq` was still unset,
which only the `seq = INT_MAX` edge allows) and strictly above
`currentSeq`. -/
def SlotBounds (f c : Nat) (cs : List Chunk) : Prop :=
  ∀ x ∈ cs, x.seq ≠ 0 →
    (f = 0 → INTMAX ≤ x.seq) ∧ (f ≠ 0 → f ≤ x.seq) ∧ (c ≠ 0 → c < x.seq)

/-- The buffer invariant of the claim: occupied slots are in-window, above
`currentSeq` and pairwise distinct. -/
def BufferInv (d : Guppy) : Prop :=
  SlotBounds d.firstSeq d.currentSeq d.chunks ∧ (occSeqs d.chunks).Nodup

theorem drainPassGo_inv (f n : Nat) :
    ∀ (cs : List Chunk) (i c : Nat) (b : List Char) (a : Bool),
      SlotBounds f c cs → (occSeqs cs).Nodup →
      SlotBounds f (drainPassGo f n cs i c b a).currentSeq
          (drainPassGo f n cs i c b a).chunks ∧
      (occSeqs (drainPassGo f n cs i c b a).chunks).Nodup := by
  intro cs
  induction cs with
  | nil =>
    intro i c b a hsb hnd
    exact ⟨fun x hx => absurd hx (by simp [drainPassGo]), by simpa [drainPassGo] using hnd⟩
  | cons x rest ih =>
    intro i c b a hsb hnd
    by_cases h : drainCond f c x.seq
    · have hpos : 0 < x.seq := by
        rcases h with ⟨hc, _, hs⟩ | ⟨_, hf, hs⟩ <;> omega
      have hxney : ∀ y ∈ rest, y.seq ≠ 0 → y.seq ≠ x.seq := by
        intro y hy hy0 heq
        rw [occSeqs_cons_pos _ (by omega), List.nodup_cons] at hnd
        exact hnd.1 ((mem_occSeqs _ _).mpr ⟨⟨y, hy, heq⟩, by omega⟩)
      have hsb' : SlotBounds f x.seq rest := by
        intro y hy hy0
        obtain ⟨b1, b2, b3⟩ := hsb y (List.mem_cons_of_mem _ hy) hy0
        refine ⟨b1, b2, fun _ => ?_⟩
        have hne := hxney y hy hy0
        rcases h with ⟨hc0, _, hs⟩ | ⟨hc0, hf0, hs⟩
        · have := b3 hc0
          omega
        · have := b2 (by omega)
          omega
      have hnd' : (occSeqs rest).Nodup := by
        rw [occSeqs_cons_pos _ (by omega), List.nodup_cons] at hnd
        exact hnd.2
      obtain ⟨ihb, ihn⟩ := ih (i + 1) x.seq (b ++ x.data) (decide (i < n - 1)) hsb' hnd'
      simp only [drainPassGo, if_pos h]
      constructor
      · intro y hy hy0
        rcases List.mem_cons.mp hy with rfl | hy'
        · exact absurd rfl hy0
        · exact ihb y hy' hy0
      · rw [occSeqs_cons_zero _ rfl]
        exact ihn
    · have hsb' : SlotBounds f c rest :=
        fun y hy => hsb y (List.mem_cons_of_mem _ hy)
      have hnd' : (occSeqs rest).Nodup := by
        by_cases hx : x.seq = 0
        · rwa [occSeqs_cons_zero _ hx] at hnd
        · rw [occSeqs_cons_pos _ hx, List.nodup_cons] at hnd
          exact hnd.2
      obtain ⟨ihb, ihn⟩ := ih (i + 1) c b a hsb' hnd'
      obtain ⟨_, slseq, scs, slpos, sstpos, _, _, _, slmem, scmem, smono⟩ :=
        drainPassGo_spec f n rest (i + 1) c b a
      simp only [drainPassGo, if_neg h]
      constructor
      · intro y hy hy0
        rcases List.mem_cons.mp hy with rfl | hy'
        · -- the skipped head must stay above the final currentSeq
          obtain ⟨b1, b2, b3⟩ := hsb y (List.mem_cons_self _ _) hy0
          refine ⟨b1, b2, fun hcne => ?_⟩
          by_cases hlog : (drainPassGo f n rest (i + 1) c b a).log = []
          · rw [scs, if_pos hlog]
            rw [scs, if_pos hlog] at hcne
            exact b3 hcne
          · have hst := sstpos hlog
            have hk : 1 ≤ (drainPassGo f n rest (i + 1) c b a).log.length := by
              cases hlp : (drainPassGo f n rest (i + 1) c b a).log with
              | nil => exact absurd hlp hlog
              | cons u v => simp
            have hymem : y.seq ∉ List.range' (startOf c f)
                (drainPassGo f n rest (i + 1) c b a).log.length := by
              intro hmem
              rw [← slseq] at hmem
              obtain ⟨z, hz, hzs⟩ := List.mem_map.mp hmem
              have hz0 : (0 : Nat) < z.seq := slpos z hz
              rw [occSeqs_cons_pos _ hy0, List.nodup_cons] at hnd
              exact hnd.1 ((mem_occSeqs _ _).mpr
                ⟨⟨z, slmem z hz, hzs⟩, by omega⟩)
            have hge : startOf c f ≤ y.seq := by
              by_cases hc0 : c = 0
              · have : f ≠ 0 := by
                  simp only [startOf, if_pos hc0] at hst
                  omega
                have := b2 this
                simp only [startOf, if_pos hc0]
                omega
              · have := b3 hc0
                simp only [startOf, if_neg hc0]
                omega
            rw [List.mem_range'_1] at hymem
            rw [scs, if_neg hlog]
            omega
        · exact ihb y hy' hy0
      · by_cases hx : x.seq = 0
        · rw [occSeqs_cons_zero _ hx]
          exact ihn
        · rw [occSeqs_cons_pos _ hx, List.nodup_cons]
          refine ⟨?_, ihn⟩
          intro hmem
          obtain ⟨⟨y, hy, hys⟩, ha⟩ := (mem_occSeqs _ _).mp hmem
          rcases scmem y hy with hy' | hy'
          · rw [occSeqs_cons_pos _ hx, List.nodup_cons] at hnd
            exact hnd.1 ((mem_occSeqs _ _).mpr ⟨⟨y, hy', hys⟩, ha⟩)
          · rw [hy'] at hys
            exact hx hys.symm

theorem drainLoopFuel_inv (f : Nat) :
    ∀ (fuel : Nat) (cs : List Chunk) (c : Nat) (b : List Char),
      SlotBounds f c cs → (occSeqs cs).Nodup →
      SlotBounds f (drainLoopFuel f fuel cs c b).currentSeq
          (drainLoopFuel f fuel cs c b).chunks ∧
      (occSeqs (drainLoopFuel f fuel cs c b).chunks).Nodup := by
  intro fuel
  induction fuel with
  | zero => intro cs c b hsb hnd; exact ⟨hsb, hnd⟩
  | succ fuel ih =>
    intro cs c b hsb hnd
    obtain ⟨pb, pnd⟩ := drainPassGo_inv f cs.length cs 0 c b false hsb hnd
    simp only [drainLoopFuel]
    by_cases hag : (drainPass f cs c b).again = true
    · rw [if_pos hag]
      exact ih _ _ _ pb pnd
    · rw [if_neg hag]
      exact ⟨pb, pnd⟩

theorem processChunks_BufferInv (d : Guppy) (h : BufferInv d) :
    BufferInv (processChunks d).1 := by
  obtain ⟨hm, hf, hl, hc, hcs, hb, hlog⟩ := processChunks_fields d
  obtain ⟨ib, ind⟩ := drainLoopFuel_inv d.firstSeq (occupied d.chunks + 1) d.chunks
    d.currentSeq d.body h.1 h.2
  constructor
  · rw [hf, hc, hcs]
    exact ib
  · rw [hc]
    exact ind

theorem storeChunkScan_BufferInv (e : Guppy) (s : Nat) (p : List Char) (h6 : 6 ≤ s)
    (hw1 : e.firstSeq = 0 → INTMAX ≤ s) (hw2 : e.firstSeq ≠ 0 → e.firstSeq ≤ s)
    (hw3 : e.currentSeq ≠ 0 → e.currentSeq < s)
    (h : BufferInv e) : BufferInv (storeChunkScan e s p) := by
  simp only [storeChunkScan]
  by_cases hfound :
      (scanGo e.firstSeq e.lastSeq s e.chunks 0 Option.none (-1) Option.none).1 = true
  · rw [if_pos hfound]
    exact h
  · rw [if_neg hfound]
    have hnos : ∀ y ∈ e.chunks, y.seq ≠ s := fun y hy hys =>
      hfound ((scanGo_found _ _ _ _ _ _ _ _).mpr ⟨y, hy, hys⟩)
    split
    · next i heq =>
      constructor
      · intro x hx hx0
        rcases List.mem_or_eq_of_mem_set hx with hx' | hx'
        · exact h.1 x hx' hx0
        · rw [hx']
          exact ⟨fun hf => hw1 hf, fun hf => hw2 hf, fun hc => hw3 hc⟩
      · exact nodupOcc_set s p e.chunks i (by omega) hnos h.2
    · exact h

theorem storeChunkCore_BufferInv (e : Guppy) (s : Nat) (p : List Char) (h6 : 6 ≤ s)
    (hw1 : e.firstSeq = 0 → INTMAX ≤ s) (h : BufferInv e) :
    BufferInv (storeChunkCore e s p) := by
  unfold storeChunkCore
  by_cases hterm : e.lastSeq = 0 ∧ p = []
  · rw [if_pos hterm]
    exact h
  · rw [if_neg hterm]
    by_cases hrej : (e.currentSeq ≠ 0 ∧ s ≤ e.currentSeq) ∨
        (e.firstSeq ≠ 0 ∧ s < e.firstSeq) ∨ (e.lastSeq ≠ 0 ∧ e.lastSeq < s)
    · rw [if_pos hrej]
      exact h
    · rw [if_neg hrej]
      push_neg at hrej
      exact storeChunkScan_BufferInv e s p h6 hw1
        (fun hf => by have := hrej.2.1 hf; omega)
        (fun hc => by have := hrej.1 hc; omega) h

/-- `storeChunk_Guppy_` preserves the buffer invariant (for the call-site
guarantee `seq ≥ 6`). -/
theorem storeChunk_BufferInv (d : Guppy) (s : Nat) (p : List Char) (h6 : 6 ≤ s)
    (h : BufferInv d) : BufferInv (storeChunk d s p) := by
  unfold storeChunk
  by_cases hup : d.firstSeq = 0 ∧ s < INTMAX
  · rw [if_pos hup]
    apply storeChunkCore_BufferInv _ s p h6
    · intro hf
      have hs0 : s = 0 := hf
      omega
    · constructor
      · intro x hx hx0
        obtain ⟨b1, b2, b3⟩ := h.1 x hx hx0
        have hbig := b1 hup.1
        refine ⟨?_, ?_, ?_⟩
        · intro h0
          dsimp only at h0
          omega
        · intro _
          dsimp only
          omega
        · exact b3
      · exact h.2
  · rw [if_neg hup]
    apply storeChunkCore_BufferInv d s p h6
    · intro hf
      rcases Nat.lt_or_ge s INTMAX with hlt | hge
      · exact absurd ⟨hf, hlt⟩ hup
      · exact hge
    · exact h

/-- `storeChunk_Guppy_` never touches `body` or `currentSeq`. -/
theorem storeChunk_body_currentSeq (d : Guppy) (s : Nat) (p : List Char) :
    (storeChunk d s p).body = d.body ∧ (storeChunk d s p).currentSeq = d.currentSeq :=
  ⟨storeChunk_body d s p, storeChunk_currentSeq d s p⟩

/-- An admission rejected by the window check leaves the slots unchanged. -/
theorem storeChunk_reject_chunks (d : Guppy) (s : Nat) (p : List Char)
    (hrej : (d.currentSeq ≠ 0 ∧ s ≤ d.currentSeq) ∨ (d.firstSeq ≠ 0 ∧ s < d.firstSeq) ∨
      (d.lastSeq ≠ 0 ∧ d.lastSeq < s)) :
    (storeChunk d s p).chunks = d.chunks := by
  unfold storeChunk
  by_cases hup : d.firstSeq = 0 ∧ s < INTMAX
  · rw [if_pos hup]
    unfold storeChunkCore
    by_cases hterm : d.lastSeq = 0 ∧ p = []
    · rw [if_pos hterm]
    · rw [if_neg (fun hx => hterm hx), if_pos]
      rcases hrej with h1 | h2 | h3
      · exact Or.inl h1
      · exact absurd h2.1 (by simp [hup.1])
      · exact Or.inr (Or.inr h3)
  · rw [if_neg hup]
    unfold storeChunkCore
    by_cases hterm : d.lastSeq = 0 ∧ p = []
    · rw [if_pos hterm]
    · rw [if_neg (fun hx => hterm hx), if_pos hrej]

/-- The scan-branch of the admission is only reached inside the window. -/
theorem storeChunkCore_window (e : Guppy) (s : Nat) (p : List Char)
    (hne : (storeChunkCore e s p).chunks ≠ e.chunks) :
    ¬ ((e.currentSeq ≠ 0 ∧ s ≤ e.currentSeq) ∨ (e.firstSeq ≠ 0 ∧ s < e.firstSeq) ∨
      (e.lastSeq ≠ 0 ∧ e.lastSeq < s)) := by
  intro hrej
  unfold storeChunkCore at hne
  by_cases hterm : e.lastSeq = 0 ∧ p = []
  · rw [if_pos hterm] at hne
    exact hne rfl
  · rw [if_neg hterm, if_pos hrej] at hne
    exact hne rfl

/-- A chunk enters the buffer only inside the admission window (stated with
the post-call `firstSeq`, which the call itself may have set). -/
theorem storeChunk_window (d : Guppy) (s : Nat) (p : List Char)
    (hne : (storeChunk d s p).chunks ≠ d.chunks) :
    (d.currentSeq = 0 ∨ d.currentSeq < s) ∧
    ((storeChunk d s p).firstSeq = 0 ∨ (storeChunk d s p).firstSeq ≤ s) ∧
    (d.lastSeq = 0 ∨ s ≤ d.lastSeq) := by
  unfold storeChunk at hne
  by_cases hup : d.firstSeq = 0 ∧ s < INTMAX
  · rw [if_pos hup] at hne
    have hw := storeChunkCore_window _ s p hne
    push_neg at hw
    have hfs : (storeChunk d s p).firstSeq = s := by
      rw [storeChunk_firstSeq, if_pos hup]
    refine ⟨?_, ?_, ?_⟩
    · have := hw.1
      dsimp only at this
      omega
    · rw [hfs]
      exact Or.inr (le_refl s)
    · have := hw.2.2
      dsimp only at this
      omega
  · rw [if_neg hup] at hne
    have hw := storeChunkCore_window d s p hne
    push_neg at hw
    have hfs : (storeChunk d s p).firstSeq = d.firstSeq := by
      rw [storeChunk_firstSeq, if_neg hup]
    refine ⟨?_, ?_, ?_⟩
    · have := hw.1
      omega
    · rw [hfs]
      have := hw.2.1
      omega
    · have := hw.2.2
      omega

/-! ## Runs of admissions and drains -/

/-- The sequence numbers delivered so far: `firstSeq .. currentSeq` when
anything has been delivered, nothing while `currentSeq` is the sentinel. -/
def seqRange (f c : Nat) : List Nat :=
  if c = 0 then [] else List.range' f (c + 1 - f)

/-- The coupling between `body`, the delivered-chunk log and the watermarks:
the body is the base plus the logged payloads in order, and the logged
sequence numbers are exactly `firstSeq .. currentSeq`, gap-free. -/
def ReassemblyInv (base : List Char) (d : Guppy) (log : List Chunk) : Prop :=
  d.body = base ++ (log.map Chunk.data).flatten ∧
  log.map Chunk.seq = seqRange d.firstSeq d.currentSeq ∧
  (d.currentSeq ≠ 0 → d.firstSeq ≠ 0 ∧ d.firstSeq ≤ d.currentSeq)

theorem applyOp_inv (base : List Char) (d : Guppy) (log : List Chunk) (op : GuppyOp)
    (h : ReassemblyInv base d log) :
    ReassemblyInv base (applyOp d log op).1 (applyOp d log op).2 := by
  obtain ⟨hb, hls, hcf⟩ := h
  cases op with
  | store s p =>
    dsimp only [applyOp]
    refine ⟨?_, ?_, ?_⟩
    · rw [storeChunk_body]
      exact hb
    · rw [storeChunk_currentSeq]
      by_cases hc0 : d.currentSeq = 0
      · rw [hc0]
        rw [hc0] at hls
        simpa [seqRange] using hls
      · have hf0 := (hcf hc0).1
        rw [storeChunk_firstSeq, if_neg (fun hx => hf0 hx.1)]
        exact hls
    · rw [storeChunk_currentSeq, storeChunk_firstSeq]
      intro hc0
      rw [if_neg (fun hx => (hcf hc0).1 hx.1)]
      exact hcf hc0
  | drain =>
    obtain ⟨hm, hf, hl, hc, hcs, hbo, hlog⟩ := processChunks_fields d
    obtain ⟨sb, slseq, scs, slpos, sstpos, slen, socc, slmem, scmem, smono⟩ :=
      drainLoop_spec d.firstSeq d.chunks d.currentSeq d.body
    show ReassemblyInv base (processChunks d).1 (log ++ (processChunks d).2)
    set r := drainLoop d.firstSeq d.chunks d.currentSeq d.body with hr
    refine ⟨?_, ?_, ?_⟩
    · rw [hbo, sb, hb, hlog]
      simp [List.append_assoc]
    · rw [hlog, hcs, hf, List.map_append, hls, slseq]
      by_cases hk : r.log = []
      · rw [hk]
        simp [scs, hk]
      · have hst := sstpos hk
        have hk1 : 1 ≤ r.log.length := by
          cases hlp : r.log with
          | nil => exact absurd hlp hk
          | cons u v => simp
        by_cases hc0 : d.currentSeq = 0
        · have h1 : seqRange d.firstSeq d.currentSeq = [] := by
            rw [hc0]
            simp [seqRange]
          have hstf : startOf d.currentSeq d.firstSeq = d.firstSeq := by
            rw [hc0]
            simp [startOf]
          have hf1 : 0 < d.firstSeq := by rwa [hstf] at hst
          rw [h1, List.nil_append, hstf, scs, if_neg hk, hstf]
          simp only [seqRange]
          rw [if_neg (by omega)]
          congr 1
          omega
        · obtain ⟨hf0, hfc⟩ := hcf hc0
          have hstf : startOf d.currentSeq d.firstSeq = d.currentSeq + 1 := by
            simp [startOf, hc0]
          rw [hstf, scs, if_neg hk, hstf]
          simp only [seqRange, if_neg hc0]
          rw [if_neg (by omega)]
          have h2 : d.currentSeq + 1 + r.log.length - 1 + 1 - d.firstSeq
              = r.log.length + (d.currentSeq + 1 - d.firstSeq) := by
            omega
          rw [h2]
          rw [show List.range' (d.currentSeq + 1) r.log.length
              = List.range' (d.firstSeq + (d.currentSeq + 1 - d.firstSeq)) r.log.length
            from by
              congr 1
              omega]
          exact List.range'_append_1 d.firstSeq (d.currentSeq + 1 - d.firstSeq)
            r.log.length
    · rw [hcs, hf]
      intro hc0
      by_cases hk : r.log = []
      · rw [scs, if_pos hk] at hc0 ⊢
        exact hcf hc0
      · have hst := sstpos hk
        have hk1 : 1 ≤ r.log.length := by
          cases hlp : r.log with
          | nil => exact absurd hlp hk
          | cons u v => simp
        rw [scs, if_neg hk] at hc0 ⊢
        by_cases hcd : d.currentSeq = 0
        · have hstf : startOf d.currentSeq d.firstSeq = d.firstSeq := by
            rw [hcd]
            simp [startOf]
          rw [hstf] at hst ⊢
          exact ⟨by omega, by omega⟩
        · obtain ⟨hf0, hfc⟩ := hcf hcd
          have hstf : startOf d.currentSeq d.firstSeq = d.currentSeq + 1 := by
            simp [startOf, hcd]
          rw [hstf]
          exact ⟨hf0, by omega⟩

theorem runOps_inv (base : List Char) :
    ∀ (ops : List GuppyOp) (d : Guppy) (log : List Chunk),
      ReassemblyInv base d log →
      ReassemblyInv base (runOps d log ops).1 (runOps d log ops).2 := by
  intro ops
  induction ops with
  | nil => intro d log h; exact h
  | cons op rest ih =>
    intro d log h
    exact ih _ _ (applyOp_inv base d log op h)

theorem runOps_append (l₁ l₂ : List GuppyOp) :
    ∀ (d : Guppy) (log : List Chunk),
      runOps d log (l₁ ++ l₂)
        = runOps (runOps d log l₁).1 (runOps d log l₁).2 l₂ := by
  induction l₁ with
  | nil => intro d log; rfl
  | cons op rest ih =>
    intro d log
    show runOps (applyOp d log op).1 (applyOp d log op).2 (rest ++ l₂) = _
    rw [ih]
    rfl

theorem applyOp_mono (d : Guppy) (log : List Chunk) (op : GuppyOp) :
    d.currentSeq ≤ (applyOp d log op).1.currentSeq := by
  cases op with
  | store s p =>
    show d.currentSeq ≤ (storeChunk d s p).currentSeq
    rw [storeChunk_currentSeq]
  | drain =>
    show d.currentSeq ≤ (processChunks d).1.currentSeq
    obtain ⟨_, _, _, _, hcs, _, _⟩ := processChunks_fields d
    rw [hcs]
    exact (drainLoop_spec d.firstSeq d.chunks d.currentSeq d.body).2.2.2.2.2.2.2.2.2

theorem runOps_mono :
    ∀ (ops : List GuppyOp) (d : Guppy) (log : List Chunk),
      d.currentSeq ≤ (runOps d log ops).1.currentSeq := by
  intro ops
  induction ops with
  | nil => intro d log; exact le_refl _
  | cons op rest ih =>
    intro d log
    exact le_trans (applyOp_mono d log op) (ih _ _)

theorem storeChunkScan_chunks_subset (e : Guppy) (s : Nat) (p : List Char) :
    ∀ x ∈ (storeChunkScan e s p).chunks, x ∈ e.chunks ∨ x = ⟨s, p⟩ := by
  intro x hx
  simp only [storeChunkScan] at hx
  by_cases hfound :
      (scanGo e.firstSeq e.lastSeq s e.chunks 0 Option.none (-1) Option.none).1 = true
  · rw [if_pos hfound] at hx
    exact Or.inl hx
  · rw [if_neg hfound] at hx
    split at hx
    · exact (List.mem_or_eq_of_mem_set hx).imp id id
    · exact Or.inl hx

theorem storeChunkCore_chunks_subset (e : Guppy) (s : Nat) (p : List Char) :
    ∀ x ∈ (storeChunkCore e s p).chunks, x ∈ e.chunks ∨ x = ⟨s, p⟩ := by
  intro x hx
  unfold storeChunkCore at hx
  by_cases hterm : e.lastSeq = 0 ∧ p = []
  · rw [if_pos hterm] at hx
    exact Or.inl hx
  · rw [if_neg hterm] at hx
    by_cases hrej : (e.currentSeq ≠ 0 ∧ s ≤ e.currentSeq) ∨
        (e.firstSeq ≠ 0 ∧ s < e.firstSeq) ∨ (e.lastSeq ≠ 0 ∧ e.lastSeq < s)
    · rw [if_pos hrej] at hx
      exact Or.inl hx
    · rw [if_neg hrej] at hx
      exact storeChunkScan_chunks_subset e s p x hx

/-- Any slot after an admission either was already there or is the admitted
chunk. -/
theorem storeChunk_chunks_subset (d : Guppy) (s : Nat) (p : List Char) :
    ∀ x ∈ (storeChunk d s p).chunks, x ∈ d.chunks ∨ x = ⟨s, p⟩ := by
  intro x hx
  unfold storeChunk at hx
  by_cases hup : d.firstSeq = 0 ∧ s < INTMAX
  · rw [if_pos hup] at hx
    exact storeChunkCore_chunks_subset { d with firstSeq := s } s p x hx
  · rw [if_neg hup] at hx
    exact storeChunkCore_chunks_subset d s p x hx

/-- With both watermarks known, an admission rejected by the window check is
the identity on the whole session. -/
theorem storeChunk_reject_eq (d : Guppy) (s : Nat) (p : List Char)
    (hf : d.firstSeq ≠ 0) (hl : d.lastSeq ≠ 0)
    (hrej : (d.currentSeq ≠ 0 ∧ s ≤ d.currentSeq) ∨ (d.firstSeq ≠ 0 ∧ s < d.firstSeq) ∨
      (d.lastSeq ≠ 0 ∧ d.lastSeq < s)) :
    storeChunk d s p = d := by
  unfold storeChunk
  rw [if_neg (fun hx => hf hx.1)]
  unfold storeChunkCore
  rw [if_neg (fun hx => hl hx.1), if_pos hrej]

theorem bufferInv_init : BufferInv (openGuppy initGuppy) := by
  constructor
  · intro x hx hx0
    have : x = (⟨0, []⟩ : Chunk) := List.eq_of_mem_replicate hx
    rw [this] at hx0
    exact absurd rfl hx0
  · decide

theorem reassemblyInv_init : ReassemblyInv [] (openGuppy initGuppy) [] := by
  refine ⟨rfl, by decide, fun hc => absurd rfl hc⟩

theorem applyOp_BufferInv (d : Guppy) (log : List Chunk) (op : GuppyOp)
    (hop : ∀ s' p', op = GuppyOp.store s' p' → 6 ≤ s') (h : BufferInv d) :
    BufferInv (applyOp d log op).1 := by
  cases op with
  | store s' p' =>
    dsimp only [applyOp]
    exact storeChunk_BufferInv d s' p' (hop s' p' rfl) h
  | drain =>
    dsimp only [applyOp]
    exact processChunks_BufferInv d h

theorem runOps_BufferInv :
    ∀ (ops : List GuppyOp) (d : Guppy) (log : List Chunk),
      (∀ s' p', GuppyOp.store s' p' ∈ ops → 6 ≤ s') → BufferInv d →
      BufferInv (runOps d log ops).1 := by
  intro ops
  induction ops with
  | nil => intro d log _ h; exact h
  | cons op rest ih =>
    intro d log hops h
    exact ih _ _ (fun s' p' hm => hops s' p' (List.mem_cons_of_mem _ hm))
      (applyOp_BufferInv d log op (fun s' p' he => hops s' p' (he ▸ List.mem_cons_self _ _)) h)

/-- C6: the window invariant of every admission and drain.  An admission
never touches `body` or `currentSeq`; one rejected by the window check
(duplicate/stale by `seq ≤ currentSeq`, below `firstSeq`, or beyond a known
`lastSeq`) leaves the slots unchanged; a chunk only enters the buffer inside
the admission window; admissions (with the call-site guarantee `seq ≥ 6`)
and drains preserve the buffer invariant (occupied slots in-window, above
`currentSeq`, pairwise distinct); and along every run from a fresh session
no occupied slot ever holds a sequence number already delivered into
`body`. -/
theorem c6_window_invariant (d : Guppy) (s : Nat) (p : List Char) (h6 : 6 ≤ s) :
    ((storeChunk d s p).body = d.body ∧ (storeChunk d s p).currentSeq = d.currentSeq) ∧
    (((d.currentSeq ≠ 0 ∧ s ≤ d.currentSeq) ∨ (d.firstSeq ≠ 0 ∧ s < d.firstSeq) ∨
        (d.lastSeq ≠ 0 ∧ d.lastSeq < s)) → (storeChunk d s p).chunks = d.chunks) ∧
    ((storeChunk d s p).chunks ≠ d.chunks →
      (d.currentSeq = 0 ∨ d.currentSeq < s) ∧
      ((storeChunk d s p).firstSeq = 0 ∨ (storeChunk d s p).firstSeq ≤ s) ∧
      (d.lastSeq = 0 ∨ s ≤ d.lastSeq)) ∧
    (BufferInv d → BufferInv (storeChunk d s p)) ∧
    (BufferInv d → BufferInv (processChunks d).1) ∧
    (∀ ops : List GuppyOp, (∀ s' p', GuppyOp.store s' p' ∈ ops → 6 ≤ s') →
      ∀ x ∈ (runOps (openGuppy initGuppy) [] ops).1.chunks, x.seq ≠ 0 →
        x.seq ∉ ((runOps (openGuppy initGuppy) [] ops).2.map Chunk.seq)) := by
  refine ⟨⟨storeChunk_body d s p, storeChunk_currentSeq d s p⟩,
    storeChunk_reject_chunks d s p, storeChunk_window d s p,
    storeChunk_BufferInv d s p h6, processChunks_BufferInv d, ?_⟩
  intro ops hops x hx hx0 hmem
  have hbi := runOps_BufferInv ops (openGuppy initGuppy) [] hops bufferInv_init
  have hinv := runOps_inv [] ops (openGuppy initGuppy) [] reassemblyInv_init
  rw [hinv.2.1] at hmem
  by_cases hc0 : (runOps (openGuppy initGuppy) [] ops).1.currentSeq = 0
  · rw [hc0] at hmem
    simp [seqRange] at hmem
  · obtain ⟨hf0, hfc⟩ := hinv.2.2 hc0
    simp only [seqRange, if_neg hc0] at hmem
    rw [List.mem_range'_1] at hmem
    have h3 := (hbi.1 x hx hx0).2.2 hc0
    omega

theorem c6_window_invariant_witness :
    (storeChunk (openGuppy initGuppy) 7 ("AB".toList)).body = (openGuppy initGuppy).body :=
  ((c6_window_invariant (openGuppy initGuppy) 7 ("AB".toList) (by decide)).1).1

/-- C9: across every sequence of admissions and drains from a fresh session,
`currentSeq` is monotone non-decreasing (any prefix's value is at most the
full run's), and after the run `body` is exactly the concatenation of the
delivered payloads, whose sequence numbers are exactly
`firstSeq .. currentSeq` in strict, gap-free order — so `currentSeq` is the
highest sequence number appended to `body` (0 meaning nothing delivered
yet). -/
theorem c9_currentSeq_monotone (ops l₁ l₂ : List GuppyOp) (hsp : ops = l₁ ++ l₂) :
    (runOps (openGuppy initGuppy) [] l₁).1.currentSeq
        ≤ (runOps (openGuppy initGuppy) [] ops).1.currentSeq ∧
    (runOps (openGuppy initGuppy) [] ops).1.body
        = (((runOps (openGuppy initGuppy) [] ops).2).map Chunk.data).flatten ∧
    ((runOps (openGuppy initGuppy) [] ops).2).map Chunk.seq
        = seqRange (runOps (openGuppy initGuppy) [] ops).1.firstSeq
            (runOps (openGuppy initGuppy) [] ops).1.currentSeq := by
  subst hsp
  have hinv := runOps_inv [] (l₁ ++ l₂) (openGuppy initGuppy) [] reassemblyInv_init
  refine ⟨?_, ?_, hinv.2.1⟩
  · rw [runOps_append]
    exact runOps_mono l₂ _ _
  · simpa using hinv.1

theorem c9_currentSeq_monotone_witness :
    (runOps (openGuppy initGuppy) [] [GuppyOp.store 7 ("AB".toList)]).1.currentSeq
      ≤ (runOps (openGuppy initGuppy) []
          [GuppyOp.store 7 ("AB".toList), GuppyOp.drain]).1.currentSeq :=
  (c9_currentSeq_monotone [GuppyOp.store 7 ("AB".toList), GuppyOp.drain]
    [GuppyOp.store 7 ("AB".toList)] [GuppyOp.drain] rfl).1

/-- The state of a session whose very first admitted chunk was an empty
payload with sequence number `s`: both watermarks pinned to `s`, slots only
ever free or holding `s`, `currentSeq` 0 or `s`, and never `finished`. -/
def Inv10 (s : Nat) (d : Guppy) : Prop :=
  d.firstSeq = s ∧ d.lastSeq = s ∧ (d.currentSeq = 0 ∨ d.currentSeq = s) ∧
  (∀ x ∈ d.chunks, x.seq = 0 ∨ x.seq = s) ∧ d.state ≠ .finished

theorem applyOp_Inv10 (s : Nat) (h6 : 6 ≤ s) (d : Guppy) (log : List Chunk)
    (op : GuppyOp) (h : Inv10 s d) : Inv10 s (applyOp d log op).1 := by
  obtain ⟨hf, hl, hc, hch, hst⟩ := h
  cases op with
  | store s' p' =>
    dsimp only [applyOp]
    by_cases hss : s' = s
    · subst hss
      refine ⟨?_, ?_, ?_, ?_, ?_⟩
      · rw [storeChunk_firstSeq, if_neg (fun hx => by rw [hf] at hx; omega)]
        exact hf
      · rw [storeChunk_lastSeq, if_neg (fun hx => by rw [hl] at hx; omega)]
        exact hl
      · rw [storeChunk_currentSeq]
        exact hc
      · intro x hx
        rcases storeChunk_chunks_subset d s' p' x hx with hx' | hx'
        · exact hch x hx'
        · rw [hx']
          exact Or.inr rfl
      · rw [storeChunk_state]
        exact hst
    · rw [storeChunk_reject_eq d s' p' (by omega) (by omega) ?_]
      · exact ⟨hf, hl, hc, hch, hst⟩
      · rcases Nat.lt_or_ge s' s with hlt | hge
        · exact Or.inr (Or.inl ⟨by omega, by omega⟩)
        · have : s < s' := by omega
          exact Or.inr (Or.inr ⟨by omega, by omega⟩)
  | drain =>
    dsimp only [applyOp]
    obtain ⟨hm, hfq, hlq, hcq, hcs, hbo, hlog⟩ := processChunks_fields d
    obtain ⟨sb, slseq, scs, slpos, sstpos, slen, socc, slmem, scmem, smono⟩ :=
      drainLoop_spec d.firstSeq d.chunks d.currentSeq d.body
    set r := drainLoop d.firstSeq d.chunks d.currentSeq d.body with hr
    have hcur : r.currentSeq = 0 ∨ r.currentSeq = s := by
      by_cases hk : r.log = []
      · rw [scs, if_pos hk]
        exact hc
      · have hst1 := sstpos hk
        have hk1 : 1 ≤ r.log.length := by
          cases hlp : r.log with
          | nil => exact absurd hlp hk
          | cons u v => simp
        have hhead : startOf d.currentSeq d.firstSeq ∈ r.log.map Chunk.seq := by
          rw [slseq]
          rw [List.mem_range'_1]
          omega
        have hlogall : ∀ a ∈ r.log.map Chunk.seq, a = s := by
          intro a ha
          obtain ⟨z, hz, hzs⟩ := List.mem_map.mp ha
          have hz0 := slpos z hz
          rcases hch z (slmem z hz) with h0 | h0
          · omega
          · omega
        have hstart_s := hlogall _ hhead
        have hk2 : r.log.length = 1 := by
          by_contra hk2
          have hnext : startOf d.currentSeq d.firstSeq + 1 ∈ r.log.map Chunk.seq := by
            rw [slseq, List.mem_range'_1]
            omega
          have := hlogall _ hnext
          omega
        rw [scs, if_neg hk, hk2, hstart_s]
        exact Or.inr (by omega)
    refine ⟨?_, ?_, ?_, ?_, ?_⟩
    · rw [hfq]; exact hf
    · rw [hlq]; exact hl
    · rw [hcs]; exact hcur
    · intro x hx
      rw [hcq] at hx
      rcases scmem x hx with hx' | hx'
      · exact hch x hx'
      · rw [hx']
        exact Or.inl rfl
    · rw [processChunks_state]
      rw [if_neg ?_]
      · exact hst
      · intro hcond
        have h2 := hcond.2
        rw [← hr, hl] at h2
        rcases hcur with h0 | h0 <;> omega

theorem runOps_Inv10 (s : Nat) (h6 : 6 ≤ s) :
    ∀ (ops : List GuppyOp) (d : Guppy) (log : List Chunk),
      Inv10 s d → Inv10 s (runOps d log ops).1 := by
  intro ops
  induction ops with
  | nil => intro d log h; exact h
  | cons op rest ih =>
    intro d log h
    exact ih _ _ (applyOp_Inv10 s h6 d log op h)

/-- C10 (amended): a first chunk with empty payload and representable
sequence number (`6 ≤ s < INT_MAX`) pins `firstSeq = lastSeq = s` in the
same call without storing anything; afterwards, along every sequence of
admissions and drains, the session can never reach `finished` and every
admission with a different sequence number is a complete no-op (only a
repeat of `s` itself can still be admitted — and delivered to `body`, as
the counterexample above shows, which is what the original claim got wrong). -/
theorem c10_amended_terminator_first (s : Nat) (h6 : 6 ≤ s) (hmax : s < INTMAX) :
    (storeChunk (openGuppy initGuppy) s []).firstSeq = s ∧
    (storeChunk (openGuppy initGuppy) s []).lastSeq = s ∧
    (storeChunk (openGuppy initGuppy) s []).chunks = freshChunks ∧
    (storeChunk (openGuppy initGuppy) s []).body = [] ∧
    (∀ ops : List GuppyOp,
      (runOps (storeChunk (openGuppy initGuppy) s []) [] ops).1.state ≠ .finished ∧
      (∀ s' p', s' ≠ s →
        storeChunk (runOps (storeChunk (openGuppy initGuppy) s []) [] ops).1 s' p'
          = (runOps (storeChunk (openGuppy initGuppy) s []) [] ops).1)) := by
  have hfs : (storeChunk (openGuppy initGuppy) s []).firstSeq = s := by
    rw [storeChunk_firstSeq]
    exact if_pos ⟨rfl, hmax⟩
  have hls : (storeChunk (openGuppy initGuppy) s []).lastSeq = s := by
    rw [storeChunk_lastSeq]
    exact if_pos ⟨rfl, rfl⟩
  have hcs : (storeChunk (openGuppy initGuppy) s []).currentSeq = 0 :=
    storeChunk_currentSeq _ s []
  have hchs : (storeChunk (openGuppy initGuppy) s []).chunks = freshChunks :=
    storeChunk_chunks_term _ s [] rfl rfl
  have hinv0 : Inv10 s (storeChunk (openGuppy initGuppy) s []) := by
    refine ⟨hfs, hls, Or.inl hcs, ?_, ?_⟩
    · intro x hx
      rw [hchs] at hx
      have : x = (⟨0, []⟩ : Chunk) := List.eq_of_mem_replicate hx
      rw [this]
      exact Or.inl rfl
    · rw [storeChunk_state]
      intro hx
      exact absurd hx (by decide)
  refine ⟨hfs, hls, hchs, storeChunk_body _ s [], ?_⟩
  intro ops
  have hinv := runOps_Inv10 s h6 ops (storeChunk (openGuppy initGuppy) s []) [] hinv0
  refine ⟨hinv.2.2.2.2, ?_⟩
  intro s' p' hss
  apply storeChunk_reject_eq
  · rw [hinv.1]; omega
  · rw [hinv.2.1]; omega
  · rcases Nat.lt_or_ge s' s with hlt | hge
    · exact Or.inr (Or.inl ⟨by rw [hinv.1]; omega, by rw [hinv.1]; omega⟩)
    · exact Or.inr (Or.inr ⟨by rw [hinv.2.1]; omega, by rw [hinv.2.1]; omega⟩)

theorem c10_amended_terminator_first_witness :
    (storeChunk (openGuppy initGuppy) 9 []).firstSeq = 9 :=
  (c10_amended_terminator_first 9 (by decide) (by decide)).1

/-! ## The eviction candidate of the admission scan -/

/-- The `maxSeq`/`maxSeqSlot` tracking of the scan loop in isolation. -/
def maxScan : List Chunk → Nat → Int → Option Nat → Int × Option Nat
  | [], _, m, ms => (m, ms)
  | x :: rest, i, m, ms =>
    if m < (x.seq : Int) then maxScan rest (i + 1) (x.seq : Int) (some i)
    else maxScan rest (i + 1) m ms

/-- On a buffer with no duplicate of `s` and no free or stale slot, the scan
reports no match, keeps the slot accumulator, and returns exactly the
`maxScan` eviction candidate. -/
theorem scanGo_eq_maxScan (f l s : Nat) :
    ∀ (cs : List Chunk) (i : Nat) (slot : Option Nat) (m : Int) (ms : Option Nat),
      (∀ x ∈ cs, x.seq ≠ s) →
      (∀ x ∈ cs, ¬ (x.seq = 0 ∨ (0 < f ∧ x.seq < f) ∨ (0 < l ∧ l < x.seq))) →
      scanGo f l s cs i slot m ms = (false, slot, (maxScan cs i m ms).2) := by
  intro cs
  induction cs with
  | nil => intro i slot m ms _ _; rfl
  | cons x rest ih =>
    intro i slot m ms hns hst
    have hx : x.seq ≠ s := hns x (List.mem_cons_self _ _)
    have hxs : ¬ (x.seq = 0 ∨ (0 < f ∧ x.seq < f) ∨ (0 < l ∧ l < x.seq)) :=
      hst x (List.mem_cons_self _ _)
    simp only [scanGo, if_neg hx, maxScan]
    rw [if_neg (fun hc => hxs hc.2)]
    by_cases hm : m < (x.seq : Int)
    · rw [if_pos hm, if_pos hm]
      exact ih (i + 1) slot _ _ (fun y hy => hns y (List.mem_cons_of_mem _ hy))
        (fun y hy => hst y (List.mem_cons_of_mem _ hy))
    · rw [if_neg hm, if_neg hm]
      exact ih (i + 1) slot m ms (fun y hy => hns y (List.mem_cons_of_mem _ hy))
        (fun y hy => hst y (List.mem_cons_of_mem _ hy))

theorem maxScan_dominated :
    ∀ (cs : List Chunk) (i : Nat) (m : Int) (ms : Option Nat),
      (∀ x ∈ cs, (x.seq : Int) ≤ m) → maxScan cs i m ms = (m, ms) := by
  intro cs
  induction cs with
  | nil => intro i m ms _; rfl
  | cons x rest ih =>
    intro i m ms hall
    have hx := hall x (List.mem_cons_self _ _)
    simp only [maxScan, if_neg (not_lt.mpr hx)]
    exact ih (i + 1) m ms (fun y hy => hall y (List.mem_cons_of_mem _ hy))

theorem maxScan_argmax :
    ∀ (cs : List Chunk) (i : Nat) (m : Int) (ms : Option Nat),
      (∃ x ∈ cs, m < (x.seq : Int)) →
      ∃ j y, cs[j]? = some y ∧ (maxScan cs i m ms).2 = some (i + j) ∧
        (∀ x ∈ cs, x.seq ≤ y.seq) ∧ m < (y.seq : Int) := by
  intro cs
  induction cs with
  | nil => intro i m ms h; simp at h
  | cons x rest ih =>
    intro i m ms hex
    by_cases hm : m < (x.seq : Int)
    · by_cases hall : ∀ z ∈ rest, (z.seq : Int) ≤ (x.seq : Int)
      · refine ⟨0, x, by simp, ?_, ?_, hm⟩
        · simp only [maxScan, if_pos hm]
          rw [maxScan_dominated rest (i + 1) _ _ hall]
          simp
        · intro z hz
          rcases List.mem_cons.mp hz with rfl | hz'
          · exact le_refl _
          · exact_mod_cast hall z hz'
      · push_neg at hall
        obtain ⟨j, y, hjy, hms, hbound, hxy⟩ :=
          ih (i + 1) (x.seq : Int) (some i) hall
        refine ⟨j + 1, y, by simpa using hjy, ?_, ?_, lt_trans hm hxy⟩
        · simp only [maxScan, if_pos hm]
          rw [hms]
          congr 1
          omega
        · intro z hz
          rcases List.mem_cons.mp hz with rfl | hz'
          · exact_mod_cast le_of_lt hxy
          · exact hbound z hz'
    · have hexr : ∃ z ∈ rest, m < (z.seq : Int) := by
        obtain ⟨z, hz, hmz⟩ := hex
        rcases List.mem_cons.mp hz with rfl | hz'
        · exact absurd hmz hm
        · exact ⟨z, hz', hmz⟩
      obtain ⟨j, y, hjy, hms, hbound, hmy⟩ := ih (i + 1) m ms hexr
      refine ⟨j + 1, y, by simpa using hjy, ?_, ?_, hmy⟩
      · simp only [maxScan, if_neg hm]
        rw [hms]
        congr 1
        omega
      · intro z hz
        rcases List.mem_cons.mp hz with rfl | hz'
        · have : (z.seq : Int) ≤ m := not_lt.mp hm
          exact_mod_cast le_trans this (le_of_lt hmy)
        · exact hbound z hz'

/-- C7: full-buffer admission.  With `firstSeq` known, nothing delivered yet,
every slot occupied by an in-window chunk, none holding `seq` and none free
or stale: if `seq = firstSeq`, the admission evicts a slot holding the
numerically highest buffered sequence number and stores `(seq, payload)`
there — the critically needed chunk is never dropped; if `seq ≠ firstSeq`,
the chunk is dropped and the session is unchanged. -/
theorem c7_full_buffer_eviction (d : Guppy) (s : Nat) (p : List Char)
    (hne : d.chunks ≠ [])
    (hf : d.firstSeq ≠ 0) (hc : d.currentSeq = 0)
    (ht : d.lastSeq ≠ 0 ∨ p ≠ [])
    (hwin : d.firstSeq ≤ s ∧ (d.lastSeq = 0 ∨ s ≤ d.lastSeq))
    (hocc : ∀ x ∈ d.chunks, d.firstSeq ≤ x.seq ∧ (d.lastSeq = 0 ∨ x.seq ≤ d.lastSeq))
    (hnos : ∀ x ∈ d.chunks, x.seq ≠ s) :
    (s = d.firstSeq →
      ∃ j y, d.chunks[j]? = some y ∧ (∀ x ∈ d.chunks, x.seq ≤ y.seq) ∧
        (storeChunk d s p).chunks = d.chunks.set j ⟨s, p⟩) ∧
    (s ≠ d.firstSeq → storeChunk d s p = d) := by
  have hst : ∀ x ∈ d.chunks,
      ¬ (x.seq = 0 ∨ (0 < d.firstSeq ∧ x.seq < d.firstSeq) ∨
        (0 < d.lastSeq ∧ d.lastSeq < x.seq)) := by
    intro x hx hbad
    obtain ⟨h1, h2⟩ := hocc x hx
    rcases hbad with h0 | h0 | h0 <;> omega
  have hcore : storeChunk d s p = storeChunkScan d s p := by
    unfold storeChunk
    rw [if_neg (fun hx => hf hx.1)]
    unfold storeChunkCore
    rw [if_neg (fun hx => by rcases ht with h | h; exacts [h hx.1, h hx.2])]
    rw [if_neg ?_]
    intro hrej
    rcases hrej with h0 | h0 | h0
    · exact h0.1 hc
    · omega
    · omega
  have hscan := scanGo_eq_maxScan d.firstSeq d.lastSeq s d.chunks 0 Option.none (-1)
    Option.none hnos hst
  constructor
  · intro hsf
    have hex : ∃ x ∈ d.chunks, (-1 : Int) < (x.seq : Int) := by
      cases hch : d.chunks with
      | nil => exact absurd hch hne
      | cons x rest =>
        refine ⟨x, List.mem_cons_self _ _, ?_⟩
        have h0 : (0 : Int) ≤ (x.seq : Int) := Int.natCast_nonneg _
        omega
    obtain ⟨j, y, hjy, hms, hbound, _⟩ := maxScan_argmax d.chunks 0 (-1) Option.none hex
    refine ⟨j, y, hjy, hbound, ?_⟩
    rw [hcore]
    simp only [storeChunkScan, hscan]
    rw [if_neg (by simp)]
    rw [if_pos ⟨hsf, trivial⟩]
    rw [hms]
    simp
  · intro hsf
    rw [hcore]
    simp only [storeChunkScan, hscan]
    rw [if_neg (by simp)]
    rw [if_neg (fun hx => hsf hx.1)]

/-- A full buffer: all ten slots occupied by in-window chunks (none free,
none stale, none holding 8), `firstSeq = 6`, nothing delivered yet. -/
def c7State : Guppy :=
  { state := .inProgress, meta := [], body := [],
    chunks := [⟨7, "a".toList⟩, ⟨9, "b".toList⟩, ⟨10, "c".toList⟩, ⟨11, "d".toList⟩,
      ⟨12, "e".toList⟩, ⟨13, "f".toList⟩, ⟨14, "g".toList⟩, ⟨15, "h".toList⟩,
      ⟨16, "i".toList⟩, ⟨17, "j".toList⟩],
    firstSeq := 6, lastSeq := 0, currentSeq := 0 }

theorem c7_full_buffer_eviction_witness :
    storeChunk c7State 8 ("ZZ".toList) = c7State :=
  (c7_full_buffer_eviction c7State 8 ("ZZ".toList) (by decide) (by decide) rfl
    (Or.inr (by decide)) (by decide) (by decide) (by decide)).2 (by decide)

/-! ## The retry/ack scheduler -/

theorem retryGuppy_timeout_case (d : GuppyTimer) (conn : Bool) (now : Nat)
    (h : d.firstSent + 6000 ≤ now) : retryGuppy d conn now = (.timeout, d, 0) := by
  unfold retryGuppy
  rw [if_pos h]

theorem retryGuppy_no_timeout (d : GuppyTimer) (conn : Bool) (now : Nat)
    (h : ¬ d.firstSent + 6000 ≤ now) :
    (retryGuppy d conn now).2.2 = 100 ∧ (retryGuppy d conn now).1 ≠ .timeout ∧
    (retryGuppy d conn now).2.1.firstSent = d.firstSent := by
  unfold retryGuppy
  rw [if_neg h]
  split
  · exact ⟨rfl, by simp, rfl⟩
  · split
    · exact ⟨rfl, by simp, rfl⟩
    · exact ⟨rfl, by simp, rfl⟩

/-- C8: the first tick at which `now ≥ firstSent + 6000` raises the timeout
notification and stops the scheduler permanently: over every run of ticks,
the timeout is raised at most once; when it appears in the output it is the
last action emitted (the callback returned interval 0, so no request or ack
is ever sent afterwards), it happens exactly at the first tick whose time
reaches the deadline, and it does appear whenever some tick reaches the
deadline. -/
theorem c8_timeout_once (d : GuppyTimer) (ticks : List (Nat × Bool)) :
    (runTimer d ticks).count .timeout ≤ 1 ∧
    (∀ i, (runTimer d ticks)[i]? = some .timeout →
      i + 1 = (runTimer d ticks).length ∧
      (∃ t, ticks[i]? = some t ∧ d.firstSent + 6000 ≤ t.1) ∧
      (∀ j, j < i → ∀ t, ticks[j]? = some t → t.1 < d.firstSent + 6000)) ∧
    ((∃ t ∈ ticks, d.firstSent + 6000 ≤ t.1) → TimerSend.timeout ∈ runTimer d ticks) := by
  induction ticks generalizing d with
  | nil =>
    refine ⟨by simp [runTimer], ?_, ?_⟩
    · intro i hi
      simp [runTimer] at hi
    · intro hex
      simp at hex
  | cons t rest ih =>
    obtain ⟨now, conn⟩ := t
    by_cases h : d.firstSent + 6000 ≤ now
    · have hrun : runTimer d ((now, conn) :: rest) = [.timeout] := by
        show (if (retryGuppy d conn now).2.2 = 0 then [(retryGuppy d conn now).1]
            else (retryGuppy d conn now).1 :: runTimer (retryGuppy d conn now).2.1 rest)
          = [TimerSend.timeout]
        rw [retryGuppy_timeout_case d conn now h]
        rfl
      rw [hrun]
      refine ⟨by simp, ?_, ?_⟩
      · intro i hi
        cases i with
        | zero =>
          refine ⟨by simp, ⟨(now, conn), by simp, h⟩, ?_⟩
          intro j hj
          omega
        | succ i => simp at hi
      · intro _
        simp
    · obtain ⟨hint, hact, hfs⟩ := retryGuppy_no_timeout d conn now h
      have hrun : runTimer d ((now, conn) :: rest)
          = (retryGuppy d conn now).1 :: runTimer (retryGuppy d conn now).2.1 rest := by
        show (if (retryGuppy d conn now).2.2 = 0 then [(retryGuppy d conn now).1]
            else (retryGuppy d conn now).1 :: runTimer (retryGuppy d conn now).2.1 rest)
          = _
        rw [if_neg (by rw [hint]; omega)]
      obtain ⟨ihc, ihi, ihe⟩ := ih (retryGuppy d conn now).2.1
      rw [hfs] at ihi ihe
      rw [hrun]
      refine ⟨?_, ?_, ?_⟩
      · rw [List.count_cons]
        simp only [beq_iff_eq]
        rw [if_neg hact]
        omega
      · intro i hi
        cases i with
        | zero =>
          rw [List.getElem?_cons_zero] at hi
          exact absurd (Option.some.inj hi) hact
        | succ i =>
          rw [List.getElem?_cons_succ] at hi
          obtain ⟨hlen, hex, hbefore⟩ := ihi i hi
          refine ⟨by simp [List.length_cons]; omega, ?_, ?_⟩
          · obtain ⟨t, ht1, ht2⟩ := hex
            exact ⟨t, by simpa using ht1, ht2⟩
          · intro j hj t' htj
            cases j with
            | zero =>
              rw [List.getElem?_cons_zero] at htj
              rw [← Option.some.inj htj]
              omega
            | succ j =>
              rw [List.getElem?_cons_succ] at htj
              exact hbefore j (by omega) t' htj
      · intro hex
        obtain ⟨t, htmem, htge⟩ := hex
        rcases List.mem_cons.mp htmem with rfl | hmem'
        · exact absurd htge h
        · exact List.mem_cons_of_mem _ (ihe ⟨t, hmem', htge⟩)

theorem c8_timeout_once_witness :
    (runTimer ⟨0, 0, 0, 0⟩ [((6000 : Nat), true)]).count .timeout ≤ 1 :=
  (c8_timeout_once ⟨0, 0, 0, 0⟩ [((6000 : Nat), true)]).1
